import Mathlib

/-!
Verification of the grp-cli release-orchestration engine.

This file shallowly embeds the core of the engine — the variable
resolver (`internal/config/resolver.go`), the plugin manager
(`internal/plugins/manager.go`), the job graph and wave executor
(`internal/engine`), and the orchestrator — and proves the spec's
claims about them.

Modelling conventions:
* Go's `interface{}` configuration trees become the inductive `Value`
  (strings, ints, bools, maps as association lists, lists).  Go maps
  are embedded as association lists in insertion order; Go map
  iteration order is unspecified, so theorems proved here are the
  order-independent facts.
* Go strings are modelled as Lean `String`/`List Char`; the sources
  index strings by byte, which coincides with `List Char` indexing on
  the ASCII inputs the claims are about.
* Fallible Go functions returning `(T, error)` become
  `Except String T`.
* Wall-clock fields (`StartTime`, `EndTime`, `Duration`) and logging
  (`fmt.Printf`) are elided: no claim mentions them.
* Unbounded loops are embedded with an explicit fuel parameter; fuel
  exhaustion returns `none`, and termination of the source loop is a
  theorem stating the result is `some` for the fuel the wrapper
  supplies.
-/

namespace GrpCli

/-- The `$`, `{`, `}` and `.` characters used by the `${path}` reference
syntax of the resolver (`refRegex = \$\{([^\x7d]+)\x7d`). -/
def dollar : Char := Char.ofNat 36

/-- Opening brace character. -/
def obrace : Char := Char.ofNat 123

/-- Closing brace character. -/
def cbrace : Char := Char.ofNat 125

/-- Dot character separating path segments. -/
def dotSep : Char := Char.ofNat 46

/-- Configuration values: the shape of Go's `map[string]interface{}`
trees decoded from YAML (`internal/config/resolver.go` works on
`interface{}` values that are strings, maps, slices or other
primitives; numbers and booleans cover the primitives the plans use). -/
inductive Value where
  | str (s : String)
  | int (n : Int)
  | bool (b : Bool)
  | vmap (entries : List (String × Value))
  | vlist (items : List Value)
deriving Repr

/-- A configuration tree, Go's `map[string]interface{}`. -/
abbrev Config := List (String × Value)

/-- Go map lookup on the association-list embedding (first binding wins;
keys are unique in maps built from YAML). -/
def lookupEntry : List (String × Value) → String → Option Value
  | [], _ => none
  | (k, v) :: rest, key => if k == key then some v else lookupEntry rest key

/-- Embedding of Go's `strings.Split(path, ".")`: split a character
list at every dot, keeping empty segments. -/
def splitDot : List Char → List String
  | [] => [""]
  | c :: cs =>
    let rest := splitDot cs
    if c == dotSep then "" :: rest
    else
      match rest with
      | [] => [String.mk [c]]
      | s :: tail => (String.mk [c] ++ s) :: tail

/-- Inner loop of `Resolver.resolvePath` (`resolver.go:105-128`):
navigate the already-split parts, requiring a map at every step.  The
full `path` string is kept only for the error messages, exactly as in
the source. -/
def resolvePathParts (path : String) : List String → Value → Except String Value
  | [], current => Except.ok current
  | part :: rest, current =>
    match current with
    | Value.vmap entries =>
      match lookupEntry entries part with
      | some v => resolvePathParts path rest v
      | none => Except.error ("reference path not found: " ++ path)
    | _ => Except.error ("invalid reference path: " ++ path)

/-- `Resolver.resolvePath` (`resolver.go:105-128`): dot-separated
navigation starting at the top-level context map. -/
def resolvePath (path : String) (context : Config) : Except String Value :=
  resolvePathParts path (splitDot path.data) (Value.vmap context)

/-- Whether the regex `\$\{[^\x7d]+\x7d` matches at the head of the
character list: `${`, then at least one non-`}` character, then `}`. -/
def refMatchAt : List Char → Bool
  | a :: b :: rest =>
    a == dollar && b == obrace &&
    !(rest.takeWhile (fun x => x != cbrace)).isEmpty &&
    !(rest.dropWhile (fun x => x != cbrace)).isEmpty
  | _ => false

/-- Embedding of `refRegex.MatchString`: the pattern matches somewhere
in the string. -/
def containsRef : List Char → Bool
  | [] => false
  | c :: cs => refMatchAt (c :: cs) || containsRef cs

/-- Embedding of `strings.HasPrefix(value, "${")`. -/
def startsWithRefOpen : List Char → Bool
  | a :: b :: _ => a == dollar && b == obrace
  | _ => false

/-- Embedding of `strings.HasSuffix(value, "}")`. -/
def endsWithClose (l : List Char) : Bool :=
  match l.getLast? with
  | some c => c == cbrace
  | none => false

/-- Go's `fmt.Sprintf("%v", value)`, used by `resolveString` to
interpolate a resolved value into the surrounding text.  Scalars print
exactly as in Go; for maps we print entries in association-list order
(Go sorts map keys — no claim depends on composite formatting). -/
def stringOfValue : Value → String
  | Value.str s => s
  | Value.int n => toString n
  | Value.bool b => if b then "true" else "false"
  | Value.vmap es => "map[" ++ stringOfEntries es ++ "]"
  | Value.vlist vs => "[" ++ stringOfItems vs ++ "]"
where
  stringOfEntries : List (String × Value) → String
    | [] => ""
    | [(k, v)] => k ++ ":" ++ stringOfValue v
    | (k, v) :: rest => k ++ ":" ++ stringOfValue v ++ " " ++ stringOfEntries rest
  stringOfItems : List Value → String
    | [] => ""
    | [v] => stringOfValue v
    | v :: rest => stringOfValue v ++ " " ++ stringOfItems rest

/-- The callback passed to `ReplaceAllStringFunc` in
`resolveString` (`resolver.go:71-84`): resolve the captured path; on
success interpolate the value's string form, on failure return the
original `${path}` text unchanged. -/
def refSubst (context : Config) (path : List Char) : List Char :=
  match resolvePath (String.mk path) context with
  | Except.ok v => (stringOfValue v).data
  | Except.error _ => dollar :: obrace :: (path ++ [cbrace])

/-- Embedding of `refRegex.ReplaceAllStringFunc(value, f)`: scan left
to right; at each position where the pattern matches, substitute via
`refSubst` and continue after the match; otherwise emit the character.
The fuel argument makes the scan structurally recursive; the wrapper
`replaceRefs` supplies `l.length`, which always suffices because every
step consumes at least one character. -/
def replaceRefsF (context : Config) : Nat → List Char → List Char
  | _, [] => []
  | 0, l => l
  | fuel + 1, c :: cs =>
    if refMatchAt (c :: cs) then
      match cs with
      | [] => [c]
      | _ :: rest =>
        let path := rest.takeWhile (fun x => x != cbrace)
        let after := (rest.dropWhile (fun x => x != cbrace)).drop 1
        refSubst context path ++ replaceRefsF context fuel after
    else c :: replaceRefsF context fuel cs

/-- Leftmost-scan substitution of every `${path}` occurrence, the
total wrapper of `replaceRefsF`. -/
def replaceRefs (context : Config) (l : List Char) : List Char :=
  replaceRefsF context l.length l

/-- `Resolver.resolveString` (`resolver.go:54-87`).  If the string
matches the reference regex *and* starts with `${` *and* ends with `}`
it is treated as a whole-string reference: the text between the first
two and last characters is the path, resolved with its original type,
and a resolution failure fails the call.  Otherwise every embedded
occurrence is substituted leniently and the call never fails. -/
def resolveString (value : String) (context : Config) : Except String Value :=
  if containsRef value.data && startsWithRefOpen value.data && endsWithClose value.data then
    let path := String.mk ((value.data.drop 2).dropLast)
    match resolvePath path context with
    | Except.ok v => Except.ok v
    | Except.error e => Except.error e
  else
    Except.ok (Value.str (String.mk (replaceRefs context value.data)))

/-- `Resolver.resolveValue` (`resolver.go:39-51`) with its two mutually
recursive companions: `ResolveValues` over map entries
(`resolver.go:23-36`, wrapping errors with the offending key) and
`resolveSlice` over list items (`resolver.go:90-102`, wrapping errors
with the offending index). -/
def resolveValue (context : Config) : Value → Except String Value
  | Value.str s => resolveString s context
  | Value.vmap entries =>
    match resolveEntries context entries with
    | Except.ok entries' => Except.ok (Value.vmap entries')
    | Except.error e => Except.error e
  | Value.vlist items =>
    match resolveItems context 0 items with
    | Except.ok items' => Except.ok (Value.vlist items')
    | Except.error e => Except.error e
  | v => Except.ok v
where
  resolveEntries (context : Config) : List (String × Value) → Except String (List (String × Value))
    | [] => Except.ok []
    | (key, v) :: rest =>
      match resolveValue context v with
      | Except.error e => Except.error ("error resolving value for key " ++ key ++ ": " ++ e)
      | Except.ok v' =>
        match resolveEntries context rest with
        | Except.error e => Except.error e
        | Except.ok rest' => Except.ok ((key, v') :: rest')
  resolveItems (context : Config) (idx : Nat) : List Value → Except String (List Value)
    | [] => Except.ok []
    | v :: rest =>
      match resolveValue context v with
      | Except.error e => Except.error ("error resolving array item " ++ toString idx ++ ": " ++ e)
      | Except.ok v' =>
        match resolveItems context (idx + 1) rest with
        | Except.error e => Except.error e
        | Except.ok rest' => Except.ok (v' :: rest')

/-- `Resolver.ResolveValues` (`resolver.go:23-36`): resolve every
entry of a configuration against the context. -/
def ResolveValues (config : Config) (context : Config) : Except String Config :=
  resolveValue.resolveEntries context config

/-! ### Basic lemmas about the scanner -/

theorem mk_data (s : String) : String.mk s.data = s := by
  cases s; rfl

theorem data_mk (l : List Char) : (String.mk l).data = l := rfl

theorem takeWhile_all_append {α : Type} (p : α → Bool) (l : List α) (x : α) (t : List α)
    (hl : ∀ c ∈ l, p c = true) (hx : p x = false) :
    (l ++ x :: t).takeWhile p = l ∧ (l ++ x :: t).dropWhile p = x :: t := by
  induction l with
  | nil => simp [List.takeWhile, List.dropWhile, hx]
  | cons a rest ih =>
    have ha : p a = true := hl a (by simp)
    have ih' := ih (fun c hc => hl c (by simp [hc]))
    simp [List.takeWhile, List.dropWhile, ha, ih'.1, ih'.2]

theorem dropWhile_length_le {α : Type} (p : α → Bool) (l : List α) :
    (l.dropWhile p).length ≤ l.length := by
  induction l with
  | nil => simp [List.dropWhile]
  | cons a t ih =>
    simp only [List.dropWhile]
    split
    · exact Nat.le_trans ih (Nat.le_succ _)
    · exact Nat.le_refl _

/-- The fuel supplied to `replaceRefsF` is irrelevant as soon as it
covers the length of the input: every scanning step consumes at least
one character. -/
theorem replaceRefsF_congr (context : Config) :
    ∀ f₁ f₂ l, l.length ≤ f₁ → l.length ≤ f₂ →
      replaceRefsF context f₁ l = replaceRefsF context f₂ l := by
  intro f₁
  induction f₁ with
  | zero =>
    intro f₂ l h1 _
    have : l = [] := List.eq_nil_of_length_eq_zero (Nat.le_zero.mp h1)
    subst this
    cases f₂ <;> rfl
  | succ f ih =>
    intro f₂ l h1 h2
    cases l with
    | nil => cases f₂ <;> rfl
    | cons c cs =>
      cases f₂ with
      | zero => exact absurd h2 (by simp)
      | succ g =>
        have hcs1 : cs.length ≤ f := Nat.le_of_succ_le_succ h1
        have hcs2 : cs.length ≤ g := Nat.le_of_succ_le_succ h2
        simp only [replaceRefsF]
        split
        · cases cs with
          | nil => rfl
          | cons x rest =>
            have hafter : ((rest.dropWhile (fun y => y != cbrace)).tail).length ≤ rest.length := by
              calc ((rest.dropWhile (fun y => y != cbrace)).tail).length
                  ≤ (rest.dropWhile (fun y => y != cbrace)).length := by
                    simp [List.length_tail]
                _ ≤ rest.length := dropWhile_length_le _ _
            have hr1 : ((rest.dropWhile (fun y => y != cbrace)).tail).length ≤ f :=
              Nat.le_trans hafter (Nat.le_trans (Nat.le_succ _) hcs1)
            have hr2 : ((rest.dropWhile (fun y => y != cbrace)).tail).length ≤ g :=
              Nat.le_trans hafter (Nat.le_trans (Nat.le_succ _) hcs2)
            simp [List.drop_one, ih g _ hr1 hr2]
        · simp [ih g cs hcs1 hcs2]

theorem replaceRefsF_eq_replaceRefs (context : Config) (fuel : Nat) (l : List Char)
    (h : l.length ≤ fuel) : replaceRefsF context fuel l = replaceRefs context l :=
  replaceRefsF_congr context fuel l.length l h (Nat.le_refl _)

theorem refMatchAt_of_no_dollar (c : Char) (l : List Char) (h : c ≠ dollar) :
    refMatchAt (c :: l) = false := by
  cases l with
  | nil => rfl
  | cons b rest =>
    have : (c == dollar) = false := by simp [h]
    simp [refMatchAt, this]

/-- Scanning a character that does not start a match emits it
unchanged. -/
theorem replaceRefs_cons_noref (context : Config) (c : Char) (l : List Char)
    (h : refMatchAt (c :: l) = false) :
    replaceRefs context (c :: l) = c :: replaceRefs context l := by
  simp only [replaceRefs, List.length_cons, replaceRefsF, h]
  rfl

/-- Scanning a `${path}` occurrence at the head substitutes it via
`refSubst` and continues after the closing brace. -/
theorem replaceRefs_match (context : Config) (path post : List Char)
    (hp1 : path ≠ []) (hp2 : ∀ c ∈ path, c ≠ cbrace) :
    replaceRefs context (dollar :: obrace :: (path ++ cbrace :: post))
      = refSubst context path ++ replaceRefs context post := by
  have hall : ∀ c ∈ path, (fun x => x != cbrace) c = true := by
    intro c hc; simpa using hp2 c hc
  have hsplit := takeWhile_all_append (fun x => x != cbrace) path cbrace post hall (by simp)
  have hmatch : refMatchAt (dollar :: obrace :: (path ++ cbrace :: post)) = true := by
    simp [refMatchAt, hsplit.1, hsplit.2, hp1]
  simp only [replaceRefs, List.length_cons, replaceRefsF, hmatch, if_true]
  rw [hsplit.1, hsplit.2]
  simp only [List.drop_succ_cons, List.drop_zero]
  rw [replaceRefsF_eq_replaceRefs]
  · rfl
  · simp only [List.length_append, List.length_cons]
    omega

/-- Dollar-free text is passed through the scanner unchanged. -/
theorem replaceRefs_append_nodollar (context : Config) (pre rest : List Char)
    (hpre : ∀ c ∈ pre, c ≠ dollar) :
    replaceRefs context (pre ++ rest) = pre ++ replaceRefs context rest := by
  induction pre with
  | nil => rfl
  | cons a t ih =>
    have ha : a ≠ dollar := hpre a (by simp)
    have ih' := ih (fun c hc => hpre c (by simp [hc]))
    rw [List.cons_append, replaceRefs_cons_noref context a (t ++ rest)
      (refMatchAt_of_no_dollar a (t ++ rest) ha), ih']
    rfl

/-! ### Claims C3 and C4: `resolveString` -/

/-- C4: a scalar string that consists exactly of one whole reference,
i.e. is literally `${path}` with `path` nonempty and brace-free,
resolves to exactly what `resolvePath` yields for that dot-separated
path: the stored value with its original type when the path resolves,
and the path error (failing the entire resolution) when it does not. -/
theorem resolveString_whole_eq (path : String) (context : Config)
    (hne : path.data ≠ []) (hnc : ∀ c ∈ path.data, c ≠ cbrace) :
    resolveString ("$\x7b" ++ path ++ "\x7d") context = resolvePath path context := by
  have hdata : ("$\x7b" ++ path ++ "\x7d").data
      = dollar :: obrace :: (path.data ++ [cbrace]) := by
    rw [String.data_append, String.data_append]
    rfl
  have hall : ∀ c ∈ path.data, (fun x => x != cbrace) c = true := by
    intro c hc; simpa using hnc c hc
  have hsplit := takeWhile_all_append (fun x => x != cbrace) path.data cbrace [] hall (by simp)
  have hmatch : refMatchAt (dollar :: obrace :: (path.data ++ [cbrace])) = true := by
    simp only [refMatchAt]
    rw [show path.data ++ [cbrace] = path.data ++ cbrace :: [] from rfl, hsplit.1, hsplit.2]
    simp [hne]
  have hcontains : containsRef (dollar :: obrace :: (path.data ++ [cbrace])) = true := by
    simp [containsRef, hmatch]
  have hends : endsWithClose (dollar :: obrace :: (path.data ++ [cbrace])) = true := by
    simp only [endsWithClose]
    rw [show dollar :: obrace :: (path.data ++ [cbrace])
        = (dollar :: obrace :: path.data) ++ [cbrace] by simp]
    rw [List.getLast?_concat]
    simp
  have hpath : String.mk (((dollar :: obrace :: (path.data ++ [cbrace])).drop 2).dropLast)
      = path := by
    simp only [List.drop_succ_cons, List.drop_zero, List.dropLast_concat]
  simp only [resolveString, hdata, hcontains, hends, startsWithRefOpen, hpath]
  simp only [BEq.refl, Bool.and_self, Bool.and_true, if_true]
  cases h : resolvePath path context <;> simp [h]

/-- C4 witness: resolving the whole-string reference for path `a.b`
against a context where `a.b` holds the integer `42` yields the
integer itself (type preserved), and an unresolvable whole-string
reference fails the entire resolution with a path error. -/
theorem resolveString_whole_eq_witness :
    resolveString "$\x7ba.b\x7d" [("a", Value.vmap [("b", Value.int 42)])]
      = Except.ok (Value.int 42)
    ∧ resolveString "$\x7bmissing.x\x7d" [("a", Value.vmap [("b", Value.int 42)])]
      = Except.error "reference path not found: missing.x" := by
  constructor
  · exact (resolveString_whole_eq "a.b" [("a", Value.vmap [("b", Value.int 42)])]
      (by decide) (by decide)).trans rfl
  · exact (resolveString_whole_eq "missing.x" [("a", Value.vmap [("b", Value.int 42)])]
      (by decide) (by decide)).trans rfl

/-- C3 counterexample: the string built of the two embedded references
`${a}` and `${b}` separated by a space is not a single whole reference,
and both its references resolve in the given context — yet resolution
returns an error.  The whole-string test of `resolveString` only
checks regex match, `${` prefix and `}` suffix, so this string is
misclassified as one whole reference with path `a} ${b`, which fails. -/
theorem resolveString_embedded_cex :
    resolveString "$\x7ba\x7d $\x7bb\x7d" [("a", Value.int 1), ("b", Value.int 2)]
      = Except.error "reference path not found: a\x7d $\x7bb" := rfl

/-- C3 (amended): for a scalar string of shape `pre ++ ${path} ++ post`
with no `$` in `pre` — and which does not simultaneously start with
`${` and end with `}` (such a string is instead treated as one
whole-string reference) — resolution never returns an error: the
occurrence is replaced by the string form of its resolved value when
the path resolves (`refSubst`), is left untouched otherwise, and the
remainder `post` is scanned in the same way. -/
theorem resolveString_embedded_amended (pre path post : List Char) (context : Config)
    (hpre : ∀ c ∈ pre, c ≠ dollar)
    (hp1 : path ≠ []) (hp2 : ∀ c ∈ path, c ≠ cbrace)
    (hshape : startsWithRefOpen (pre ++ dollar :: obrace :: (path ++ cbrace :: post)) = false
      ∨ endsWithClose (pre ++ dollar :: obrace :: (path ++ cbrace :: post)) = false) :
    resolveString (String.mk (pre ++ dollar :: obrace :: (path ++ cbrace :: post))) context
      = Except.ok (Value.str (String.mk
          (pre ++ (refSubst context path ++ replaceRefs context post)))) := by
  have hcond : (containsRef (pre ++ dollar :: obrace :: (path ++ cbrace :: post))
      && startsWithRefOpen (pre ++ dollar :: obrace :: (path ++ cbrace :: post))
      && endsWithClose (pre ++ dollar :: obrace :: (path ++ cbrace :: post))) = false := by
    rcases hshape with h | h <;> simp [h]
  simp only [resolveString, data_mk, hcond, Bool.false_eq_true, if_false]
  rw [replaceRefs_append_nodollar context pre _ hpre,
    replaceRefs_match context path post hp1 hp2]

/-- C3 witness: resolving the embedded reference in `port=${a.b}`
against a context where `a.b` holds `42` yields the plain string
`port=42`, and the unresolvable embedded reference in
`port=${missing.x}` is left untouched with no error. -/
theorem resolveString_embedded_amended_witness :
    resolveString "port=$\x7ba.b\x7d" [("a", Value.vmap [("b", Value.int 42)])]
      = Except.ok (Value.str "port=42")
    ∧ resolveString "port=$\x7bmissing.x\x7d" [("a", Value.vmap [("b", Value.int 42)])]
      = Except.ok (Value.str "port=$\x7bmissing.x\x7d") := by
  constructor
  · exact (resolveString_embedded_amended "port=".data "a.b".data []
      [("a", Value.vmap [("b", Value.int 42)])]
      (by decide) (by decide) (by decide) (Or.inl (by decide))).trans rfl
  · exact (resolveString_embedded_amended "port=".data "missing.x".data []
      [("a", Value.vmap [("b", Value.int 42)])]
      (by decide) (by decide) (by decide) (Or.inl (by decide))).trans rfl

/-! ### Plugin manager (`internal/plugins/manager.go`, `pkg/plugin/types.go`) -/

/-- Generic Go map lookup on an association list. -/
def assocFind {α : Type} : List (String × α) → String → Option α
  | [], _ => none
  | (k, v) :: rest, key => if k == key then some v else assocFind rest key

/-- Go map write: replace the binding if the key exists, append
otherwise (insertion order preserved). -/
def assocSet {α : Type} : List (String × α) → String → α → List (String × α)
  | [], key, v => [(key, v)]
  | (k, v') :: rest, key, v =>
    if k == key then (key, v) :: rest else (k, v') :: assocSet rest key v

/-- The execution context threaded through a run.  Go attaches
`executionID`, `variables` and `stageName` to a `context.Context` via
`WithValue`; the shallow embedding carries the three keys the core
reads. -/
structure Ctx where
  executionID : Option String
  variablesMap : Option Config
  stageName : Option String
deriving Repr

/-- `plugin.Result` (`pkg/plugin/types.go`): the outcome of a plugin
execution.  `Artifacts` is elided (never touched by the core). -/
structure PluginResult where
  success : Bool
  data : Config
  message : String
  executionID : String
deriving Repr

/-- A registered handler (`plugin.Plugin` interface): external
collaborator with a name and `Validate`/`Execute` capabilities.
`Description`, `Version`, `ConfigSchema` and `Rollback` are elided —
the embedded core never invokes them. -/
structure Plugin where
  name : String
  validate : Ctx → Config → Except String Unit
  execute : Ctx → Config → Except String PluginResult

/-- `plugins.Manager` (`manager.go:15-20`): the handler registry.
The `sync.RWMutex` is elided (lock-protected state is modelled
directly); plugin discovery from `.so` files is I/O and is not
modelled. -/
structure Manager where
  registry : List (String × Plugin)
  pluginDir : String

/-- `Manager.RegisterPlugin` (`manager.go:84-95`): add a handler keyed
by its name, failing on duplicates. -/
def RegisterPlugin (pm : Manager) (plg : Plugin) : Except String Manager :=
  match assocFind pm.registry plg.name with
  | some _ => Except.error ("plugin " ++ plg.name ++ " is already registered")
  | none => Except.ok { pm with registry := assocSet pm.registry plg.name plg }

/-- `Manager.GetPlugin` (`manager.go:98-108`). -/
def GetPlugin (pm : Manager) (name : String) : Except String Plugin :=
  match assocFind pm.registry name with
  | some plg => Except.ok plg
  | none => Except.error ("plugin " ++ name ++ " not found")

/-- `Manager.ExecutePlugin` (`manager.go:111-138`): look up the
handler, read the variables from the context (re-attaching them only
when absent and nonempty, which can never happen), then run `Validate`
and, on success, `Execute` — both on the configuration exactly as
received. -/
def ExecutePlugin (pm : Manager) (ctx : Ctx) (jobType : String) (config : Config) :
    Except String PluginResult :=
  match GetPlugin pm jobType with
  | Except.error e => Except.error e
  | Except.ok plg =>
    let vars : Config := match ctx.variablesMap with
      | some m => m
      | none => []
    let execCtx : Ctx :=
      if vars.length > 0 && ctx.variablesMap.isNone then { ctx with variablesMap := some vars }
      else ctx
    match plg.validate execCtx config with
    | Except.error e => Except.error ("invalid configuration: " ++ e)
    | Except.ok _ => plg.execute execCtx config

/-- The context re-attachment in `ExecutePlugin` is dead code: when the
context lacks variables the fetched map is empty, so the condition
`len(vars) > 0 && ctx.Value("variables") == nil` never holds and the
handler always receives the caller's context unchanged. -/
theorem executePlugin_ctx_unchanged (ctx : Ctx) :
    (if (match ctx.variablesMap with
          | some m => m
          | none => ([] : Config)).length > 0 && ctx.variablesMap.isNone
      then { ctx with variablesMap := some (match ctx.variablesMap with
          | some m => m
          | none => ([] : Config)) }
      else ctx) = ctx := by
  cases h : ctx.variablesMap <;> simp [h]

/-- ExecutePlugin hands `Validate` and `Execute` the configuration
exactly as it received it — no variable resolution is applied on the
dispatch path. -/
theorem executePlugin_passes_raw_config (pm : Manager) (ctx : Ctx) (jobType : String)
    (config : Config) (plg : Plugin) (h : GetPlugin pm jobType = Except.ok plg) :
    ExecutePlugin pm ctx jobType config =
      match plg.validate ctx config with
      | Except.error e => Except.error ("invalid configuration: " ++ e)
      | Except.ok _ => plg.execute ctx config := by
  simp only [ExecutePlugin, h]
  rw [executePlugin_ctx_unchanged ctx]

/-- A handler that accepts any configuration and echoes the received
configuration back in the result's data, used to observe exactly what
`ExecutePlugin` hands to the handler. -/
def echoPlugin : Plugin where
  name := "echo"
  validate := fun _ _ => Except.ok ()
  execute := fun _ cfg =>
    Except.ok { success := true, data := cfg, message := "", executionID := "" }

/-- A manager with just the echoing handler registered. -/
def echoManager : Manager where
  registry := [("echo", echoPlugin)]
  pluginDir := "./plugins"

/-- A context carrying the variable `x = 1`. -/
def ctxWithX : Ctx where
  executionID := some "exec-1"
  variablesMap := some [("x", Value.int 1)]
  stageName := none

/-- C2: contrary to the claim, the configuration reaching the
handler's Validate and Execute capabilities has NOT had
VariableResolver applied.  At the failing input — config
`a = "${x}"` with variable context `x = 1` — the handler receives the
literal `"${x}"` unresolved, although `ResolveValues` resolves that
config to `a = 1` against the same context (and so the resolved config
differs from what the handler saw).  The repository's own
`docs/technical-spec.md` shows `ExecutePlugin` calling
`ResolveValues(config, vars)` before validation; `manager.go` omits
that call. -/
theorem executePlugin_no_resolution_cex :
    ExecutePlugin echoManager ctxWithX "echo" [("a", Value.str "$\x7bx\x7d")]
      = Except.ok { success := true, data := [("a", Value.str "$\x7bx\x7d")],
                    message := "", executionID := "" }
    ∧ ResolveValues [("a", Value.str "$\x7bx\x7d")] [("x", Value.int 1)]
      = Except.ok [("a", Value.int 1)] := by
  exact ⟨rfl, rfl⟩

/-! ### Data model (`internal/models`) -/

/-- `models.Job` (`plan.go`). -/
structure Job where
  name : String
  type : String
  dependsOn : List String
  timeout : String
  retries : Int
  config : Config
deriving Repr

/-- `models.JobResult` (`result.go`); the wall-clock fields are
elided. -/
structure JobResult where
  name : String
  type : String
  success : Bool
  message : String
  data : Config
deriving Repr

/-- `models.StageResult` (`result.go`); wall-clock fields elided. -/
structure StageResult where
  name : String
  success : Bool
  jobs : List JobResult
deriving Repr

/-- `models.ExecutionResult` (`result.go`); wall-clock fields elided. -/
structure ExecutionResult where
  id : String
  success : Bool
  totalStages : Nat
  totalJobs : Nat
  completedJobs : Nat
  failedJobs : Nat
  stages : List StageResult
deriving Repr

/-- `models.Stage` (`plan.go`). -/
structure Stage where
  name : String
  requireApproval : Bool
  approvers : List String
  jobs : List Job
deriving Repr

/-- `models.Rollback` (`plan.go`). -/
structure Rollback where
  stages : List Stage
deriving Repr

/-- `models.Plan` (`plan.go`); `apiVersion`, `kind`, `metadata` and
`includes` are loader concerns and elided. -/
structure Plan where
  variablesMap : Config
  stages : List Stage
  rollback : Option Rollback
deriving Repr

/-! ### Job graph (`internal/engine`, `part_002`) -/

/-- `engine.JobGraph` (`part_002:8-13`): job-by-name, dependency lists,
dependent lists and the completed set, all Go maps embedded as
association lists in insertion order. -/
structure JobGraph where
  jobs : List (String × Job)
  dependencies : List (String × List String)
  dependents : List (String × List String)
  completed : List String
deriving Repr

/-- `NewJobGraph` (`part_002:16-23`). -/
def NewJobGraph : JobGraph :=
  { jobs := [], dependencies := [], dependents := [], completed := [] }

/-- `JobGraph.AddJob` (`part_002:26-37`): register (or overwrite) the
job and initialize its dependency lists when absent. -/
def AddJob (g : JobGraph) (job : Job) : JobGraph :=
  { g with
    jobs := assocSet g.jobs job.name job
    dependencies :=
      match assocFind g.dependencies job.name with
      | some _ => g.dependencies
      | none => assocSet g.dependencies job.name []
    dependents :=
      match assocFind g.dependents job.name with
      | some _ => g.dependents
      | none => assocSet g.dependents job.name [] }

/-- Go's `g.dependencies[name]` read (empty list when absent). -/
def depsOf (g : JobGraph) (name : String) : List String :=
  match assocFind g.dependencies name with
  | some l => l
  | none => []

/-- Go's `g.dependents[name]` read (empty list when absent). -/
def dependentsOf (g : JobGraph) (name : String) : List String :=
  match assocFind g.dependents name with
  | some l => l
  | none => []

/-- `JobGraph.AddDependency` (`part_002:40-46`): record the edge
`job → dependsOn` and the reverse dependent edge.  No existence
check. -/
def AddDependency (g : JobGraph) (jobName dependsOn : String) : JobGraph :=
  { g with
    dependencies := assocSet g.dependencies jobName (depsOf g jobName ++ [dependsOn])
    dependents := assocSet g.dependents dependsOn (dependentsOf g dependsOn ++ [jobName]) }

/-- `JobGraph.GetReadyJobs` (`part_002:49-73`): every not-yet-completed
job whose dependencies are all completed, in the map iteration order
(embedded as insertion order). -/
def GetReadyJobs (g : JobGraph) : List Job :=
  g.jobs.filterMap (fun p =>
    if g.completed.contains p.1 then none
    else if (depsOf g p.1).all (fun d => g.completed.contains d) then some p.2
    else none)

/-- `JobGraph.MarkCompleted` (`part_002:76-78`). -/
def MarkCompleted (g : JobGraph) (jobName : String) : JobGraph :=
  if g.completed.contains jobName then g
  else { g with completed := jobName :: g.completed }

/-- `JobGraph.IsCompleted` (`part_002:81-88`). -/
def IsCompleted (g : JobGraph) : Bool :=
  g.jobs.all (fun p => g.completed.contains p.1)

/-- `JobGraph.GetRemainingJobs` (`part_002:91-101`). -/
def GetRemainingJobs (g : JobGraph) : List Job :=
  g.jobs.filterMap (fun p =>
    if g.completed.contains p.1 then none else some p.2)

/-- The registered job names, i.e. the keys of `g.jobs`. -/
def jobKeys (g : JobGraph) : List String := g.jobs.map (fun p => p.1)

/-- The loop body of `hasCyclesDFS` over the dependency list of the
current node (`part_002:127-137`), parameterized by the recursive call
`f`: an unvisited dependency is explored recursively, a visited
dependency on the recursion stack reports a cycle, and the visited set
is threaded left to right. -/
def dfsDepsWith (f : String → List String → List String → Bool × List String)
    (stack : List String) : List String → List String → Bool × List String
  | [], visited => (false, visited)
  | d :: rest, visited =>
    if visited.contains d then
      if stack.contains d then (true, visited)
      else dfsDepsWith f stack rest visited
    else
      match f d visited stack with
      | (true, v') => (true, v')
      | (false, v') => dfsDepsWith f stack rest v'

/-- `JobGraph.hasCyclesDFS` (`part_002:121-142`): mark the node
visited, push it on the recursion stack, walk its dependencies, pop on
exit (popping is implicit: recursive calls receive the extended stack,
the caller keeps its own).  The fuel bounds the recursion depth and is
never exhausted for the fuel `HasCycles` supplies, since every nested
call consumes an unvisited node. -/
def hasCyclesDFS (g : JobGraph) : Nat → String → List String → List String → Bool × List String
  | 0, _, visited, _ => (false, visited)
  | fuel + 1, node, visited, stack =>
    dfsDepsWith (hasCyclesDFS g fuel) (node :: stack) (depsOf g node) (node :: visited)

/-- Fuel that always dominates the DFS recursion depth: one unit per
registered job plus one per recorded dependency edge, plus one. -/
def dfsFuel (g : JobGraph) : Nat :=
  g.jobs.length + (g.dependencies.map (fun p => p.2.length)).sum + 1

/-- The outer loop of `HasCycles` (`part_002:109-115`): run the DFS
from every unvisited registered node, threading the visited set. -/
def hasCyclesOuter (g : JobGraph) (fuel : Nat) : List String → List String → Bool
  | [], _ => false
  | n :: rest, visited =>
    if visited.contains n then hasCyclesOuter g fuel rest visited
    else
      match hasCyclesDFS g fuel n visited [] with
      | (true, _) => true
      | (false, v') => hasCyclesOuter g fuel rest v'

/-- `JobGraph.HasCycles` (`part_002:104-118`). -/
def HasCycles (g : JobGraph) : Bool :=
  hasCyclesOuter g (dfsFuel g) (jobKeys g) []

/-- The dependency edge relation of the graph: `a` depends on `b`. -/
def edgeOf (g : JobGraph) (a b : String) : Prop := b ∈ depsOf g a

/-- The directed dependency graph contains a cycle: some registered
job reaches itself by one or more dependency edges. -/
def HasCycleProp (g : JobGraph) : Prop :=
  ∃ n, n ∈ jobKeys g ∧ Relation.TransGen (edgeOf g) n n

/-- Every recorded dependency edge targets a registered job (the
claims' well-formedness premise, guaranteed upstream by plan
validation).  Stated over the entries of the dependency map so that it
is decidable on concrete graphs. -/
def TargetsRegistered (g : JobGraph) : Prop :=
  ∀ p ∈ g.dependencies, ∀ b ∈ p.2, b ∈ jobKeys g

instance (g : JobGraph) : Decidable (TargetsRegistered g) := by
  unfold TargetsRegistered; infer_instance

/-- `buildDependencyGraph` (orchestrator, `part_003` companion file
`approval.go:203-219`): add every job, then add every declared
dependency edge. -/
def buildDependencyGraph (jobs : List Job) : JobGraph :=
  let g := jobs.foldl AddJob NewJobGraph
  jobs.foldl
    (fun g job => job.dependsOn.foldl (fun g depName => AddDependency g job.name depName) g)
    g

/-! ### Claim C6: `HasCycles` is a cycle decision procedure -/

theorem contains_iff {l : List String} {a : String} : l.contains a = true ↔ a ∈ l := by
  simp [List.contains, List.elem_iff]

theorem assocFind_mem {α : Type} {l : List (String × α)} {k : String} {v : α}
    (h : assocFind l k = some v) : (k, v) ∈ l := by
  induction l with
  | nil => simp [assocFind] at h
  | cons p rest ih =>
    obtain ⟨k', v'⟩ := p
    simp only [assocFind] at h
    split at h
    · rename_i hbeq
      have : k' = k := by simpa using hbeq
      subst this
      cases h
      exact List.mem_cons_self _ _
    · exact List.mem_cons_of_mem _ (ih h)

theorem targets_edge {g : JobGraph} (ht : TargetsRegistered g) {a b : String}
    (h : edgeOf g a b) : b ∈ jobKeys g := by
  unfold edgeOf depsOf at h
  cases hf : assocFind g.dependencies a with
  | none => rw [hf] at h; simp at h
  | some l => rw [hf] at h; exact ht (a, l) (assocFind_mem hf) b h

/-- The recursion stack, read bottom-up, is a dependency path ending
just below the current node: each stack entry has an edge to the node
above it. -/
def stackPath (g : JobGraph) : List String → String → Prop
  | [], _ => True
  | t :: rest, n => edgeOf g t n ∧ stackPath g rest t

theorem stackPath_transGen {g : JobGraph} :
    ∀ {s : List String} {m d : String}, stackPath g s m → d ∈ s →
      Relation.TransGen (edgeOf g) d m := by
  intro s
  induction s with
  | nil => intro m d _ hd; simp at hd
  | cons t rest ih =>
    intro m d hsp hd
    obtain ⟨hedge, hsp'⟩ := hsp
    rcases List.mem_cons.mp hd with h | h
    · subst h; exact Relation.TransGen.single hedge
    · exact Relation.TransGen.tail (ih hsp' h) hedge

/-- Soundness of the dependency loop: a `true` answer means a real
cycle, provided the recursive call is itself sound. -/
theorem dfsDepsWith_sound {g : JobGraph} (ht : TargetsRegistered g)
    (f : String → List String → List String → Bool × List String)
    (node : String) (stack0 : List String)
    (hf : ∀ d vis, edgeOf g node d → (f d vis (node :: stack0)).1 = true → HasCycleProp g)
    (hpath : stackPath g stack0 node) :
    ∀ deps vis, (∀ d ∈ deps, edgeOf g node d) →
      (dfsDepsWith f (node :: stack0) deps vis).1 = true → HasCycleProp g := by
  intro deps
  induction deps with
  | nil => intro vis _ h; simp [dfsDepsWith] at h
  | cons d rest ih =>
    intro vis hdeps h
    have hedge : edgeOf g node d := hdeps d (by simp)
    simp only [dfsDepsWith] at h
    split at h
    · split at h
      · rename_i hstk
        have hd : d ∈ node :: stack0 := contains_iff.mp hstk
        refine ⟨d, targets_edge ht hedge, ?_⟩
        rcases List.mem_cons.mp hd with hh | hh
        · subst hh; exact Relation.TransGen.single hedge
        · exact Relation.TransGen.tail (stackPath_transGen hpath hh) hedge
      · exact ih vis (fun x hx => hdeps x (by simp [hx])) h
    · rcases hres : f d vis (node :: stack0) with ⟨b, v'⟩
      rw [hres] at h
      cases b
      · exact ih v' (fun x hx => hdeps x (by simp [hx])) h
      · exact hf d vis hedge (by rw [hres])

/-- Soundness of the DFS: `true` implies a cycle, for any fuel. -/
theorem hasCyclesDFS_sound {g : JobGraph} (ht : TargetsRegistered g) :
    ∀ fuel node vis stack, stackPath g stack node →
      (hasCyclesDFS g fuel node vis stack).1 = true → HasCycleProp g := by
  intro fuel
  induction fuel with
  | zero => intro node vis stack _ h; simp [hasCyclesDFS] at h
  | succ f ih =>
    intro node vis stack hpath h
    simp only [hasCyclesDFS] at h
    refine dfsDepsWith_sound ht (hasCyclesDFS g f) node stack ?_ hpath
      (depsOf g node) (node :: vis) ?_ h
    · intro d visx hedge hres
      exact ih d visx (node :: stack) ⟨hedge, hpath⟩ hres
    · intro d hd; exact hd

/-- Soundness of the outer loop over roots. -/
theorem hasCyclesOuter_sound {g : JobGraph} (ht : TargetsRegistered g) (fuel : Nat) :
    ∀ roots vis, hasCyclesOuter g fuel roots vis = true → HasCycleProp g := by
  intro roots
  induction roots with
  | nil => intro vis h; simp [hasCyclesOuter] at h
  | cons n rest ih =>
    intro vis h
    simp only [hasCyclesOuter] at h
    split at h
    · exact ih vis h
    · rcases hres : hasCyclesDFS g fuel n vis [] with ⟨b, v'⟩
      rw [hres] at h
      cases b
      · exact ih v' h
      · exact hasCyclesDFS_sound ht fuel n vis [] trivial (by rw [hres])

/-- Finished nodes (visited and off the recursion stack) only have
edges to finished nodes. -/
def ClosedF (g : JobGraph) (v s : List String) : Prop :=
  ∀ x, x ∈ v → x ∉ s → ∀ y, edgeOf g x y → y ∈ v ∧ y ∉ s

/-- No finished node lies on a cycle. -/
def NoCycF (g : JobGraph) (v s : List String) : Prop :=
  ∀ x, x ∈ v → x ∉ s → ¬ Relation.TransGen (edgeOf g) x x

theorem closedF_reach {g : JobGraph} {v s : List String} (hA : ClosedF g v s)
    {x y : String} (hx : x ∈ v) (hxs : x ∉ s)
    (h : Relation.TransGen (edgeOf g) x y) : y ∈ v ∧ y ∉ s := by
  induction h with
  | single he => exact hA x hx hxs _ he
  | tail _ he ih => exact hA _ ih.1 ih.2 _ he

/-- Number of registered jobs not yet visited; the DFS recursion depth
measure. -/
def countUnvisited (g : JobGraph) (vis : List String) : Nat :=
  ((jobKeys g).filter (fun x => !vis.contains x)).length

theorem filter_length_le_of_imp {l : List String} {p q : String → Bool}
    (h : ∀ a ∈ l, p a = true → q a = true) :
    (l.filter p).length ≤ (l.filter q).length := by
  rw [← List.countP_eq_length_filter, ← List.countP_eq_length_filter]
  exact List.countP_mono_left h

theorem filter_length_lt {l : List String} {p q : String → Bool}
    (himp : ∀ a ∈ l, p a = true → q a = true)
    {b : String} (hb : b ∈ l) (hqb : q b = true) (hpb : p b = false) :
    (l.filter p).length < (l.filter q).length := by
  obtain ⟨s, t, rfl⟩ := List.append_of_mem hb
  have h1 : ∀ x ∈ s, p x = true → q x = true :=
    fun x hx hp => himp x (by simp [hx]) hp
  have h2 : ∀ x ∈ t, p x = true → q x = true :=
    fun x hx hp => himp x (by simp [hx]) hp
  have hs := filter_length_le_of_imp h1
  have hts := filter_length_le_of_imp h2
  rw [List.filter_append, List.filter_append, List.filter_cons, List.filter_cons,
    hpb, hqb]
  simp only [List.length_append]
  simp only [Bool.false_eq_true, if_false, if_true, List.length_cons]
  omega

theorem countUnvisited_mono {g : JobGraph} {v v' : List String}
    (h : ∀ x ∈ v, x ∈ v') : countUnvisited g v' ≤ countUnvisited g v := by
  apply filter_length_le_of_imp
  intro a _ hp
  simp only [Bool.not_eq_true'] at hp ⊢
  cases hq : v.contains a
  · rfl
  · have hmem : a ∈ v' := h a (contains_iff.mp hq)
    simp at hp
    exact absurd hmem hp

theorem countUnvisited_cons_lt {g : JobGraph} {vis : List String} {node : String}
    (hk : node ∈ jobKeys g) (hn : node ∉ vis) :
    countUnvisited g (node :: vis) < countUnvisited g vis := by
  have hpb : (!(node :: vis).contains node) = false := by
    simp [contains_iff.mpr (List.mem_cons_self node vis)]
  have hqb : (!vis.contains node) = true := by
    cases hq : vis.contains node
    · rfl
    · exact absurd (contains_iff.mp hq) hn
  refine filter_length_lt ?_ hk hqb hpb
  intro a _ hp
  simp only [Bool.not_eq_true'] at hp ⊢
  cases hq : vis.contains a
  · rfl
  · simp at hp
    exact absurd (contains_iff.mp hq) hp.2

/-- Completeness invariants through the dependency loop: when the loop
answers `false` (no cycle seen), the visited set has grown to cover
every dependency, finished-closure and finished-acyclicity are
preserved, and every processed dependency is finished. -/
theorem dfsDepsWith_false_inv {g : JobGraph} (ht : TargetsRegistered g)
    (f : String → List String → List String → Bool × List String)
    (node : String) (stack : List String) (fuelP : Nat)
    (hfpost : ∀ d vis b0 v0, countUnvisited g vis < fuelP → d ∉ vis → d ∈ jobKeys g →
      (∀ x, x ∈ node :: stack → x ∈ vis) →
      ClosedF g vis (node :: stack) → NoCycF g vis (node :: stack) →
      f d vis (node :: stack) = (b0, v0) → b0 = false →
      (∀ x ∈ vis, x ∈ v0) ∧ d ∈ v0 ∧
      ClosedF g v0 (node :: stack) ∧ NoCycF g v0 (node :: stack)) :
    ∀ deps vis b v', countUnvisited g vis < fuelP →
      (∀ d ∈ deps, edgeOf g node d) →
      (∀ x, x ∈ node :: stack → x ∈ vis) →
      ClosedF g vis (node :: stack) → NoCycF g vis (node :: stack) →
      dfsDepsWith f (node :: stack) deps vis = (b, v') → b = false →
      (∀ x ∈ vis, x ∈ v') ∧ (∀ d ∈ deps, d ∈ v' ∧ d ∉ (node :: stack)) ∧
      ClosedF g v' (node :: stack) ∧ NoCycF g v' (node :: stack) := by
  intro deps
  induction deps with
  | nil =>
    intro vis b v' _ _ _ hcl hnc heq _
    simp only [dfsDepsWith] at heq
    cases heq
    exact ⟨fun x hx => hx, by simp, hcl, hnc⟩
  | cons d rest ih =>
    intro vis b v' hcount hdeps hss hcl hnc heq hb
    have hedge : edgeOf g node d := hdeps d (List.mem_cons_self _ _)
    have hdrest : ∀ x ∈ rest, edgeOf g node x :=
      fun x hx => hdeps x (List.mem_cons_of_mem _ hx)
    simp only [dfsDepsWith] at heq
    split at heq
    · rename_i hvisd
      split at heq
      · cases heq; cases hb
      · rename_i hstkd
        obtain ⟨hsub, hrest, hcl', hnc'⟩ := ih vis b v' hcount hdrest hss hcl hnc heq hb
        refine ⟨hsub, ?_, hcl', hnc'⟩
        intro x hx
        rcases List.mem_cons.mp hx with h | h
        · subst h
          exact ⟨hsub x (contains_iff.mp hvisd), fun hmem => hstkd (contains_iff.mpr hmem)⟩
        · exact hrest x h
    · rename_i hvisd
      have hdnv : d ∉ vis := fun hmem => hvisd (contains_iff.mpr hmem)
      rcases hres : f d vis (node :: stack) with ⟨b0, v0⟩
      rw [hres] at heq
      cases b0
      · obtain ⟨hsub0, hd0, hcl0, hnc0⟩ :=
          hfpost d vis false v0 hcount hdnv (targets_edge ht hedge) hss hcl hnc hres rfl
        have hss0 : ∀ x, x ∈ node :: stack → x ∈ v0 := fun x hx => hsub0 x (hss x hx)
        have hcount0 : countUnvisited g v0 < fuelP :=
          Nat.lt_of_le_of_lt (countUnvisited_mono hsub0) hcount
        obtain ⟨hsub1, hrest1, hcl1, hnc1⟩ := ih v0 b v' hcount0 hdrest hss0 hcl0 hnc0 heq hb
        refine ⟨fun x hx => hsub1 x (hsub0 x hx), ?_, hcl1, hnc1⟩
        intro x hx
        rcases List.mem_cons.mp hx with h | h
        · subst h
          exact ⟨hsub1 x hd0, fun hmem => hdnv (hss x hmem)⟩
        · exact hrest1 x h
      · cases heq; cases hb

/-- Completeness invariants through one DFS call: a `false` answer
leaves the invariants intact for the caller's stack and finishes the
node, provided the fuel dominates the number of unvisited registered
jobs. -/
theorem hasCyclesDFS_false_inv {g : JobGraph} (ht : TargetsRegistered g) :
    ∀ fuel node vis stack b v', countUnvisited g vis < fuel →
      node ∉ vis → node ∈ jobKeys g →
      (∀ x, x ∈ stack → x ∈ vis) →
      ClosedF g vis stack → NoCycF g vis stack →
      hasCyclesDFS g fuel node vis stack = (b, v') → b = false →
      (∀ x ∈ vis, x ∈ v') ∧ node ∈ v' ∧ ClosedF g v' stack ∧ NoCycF g v' stack := by
  intro fuel
  induction fuel with
  | zero =>
    intro node vis stack b v' hcount _ _ _ _ _ _ _
    exact absurd hcount (Nat.not_lt_zero _)
  | succ f ih =>
    intro node vis stack b v' hcount hnv hnk hss hcl hnc heq hb
    simp only [hasCyclesDFS] at heq
    have hss' : ∀ x, x ∈ node :: stack → x ∈ node :: vis := by
      intro x hx
      rcases List.mem_cons.mp hx with h | h
      · subst h; exact List.mem_cons_self _ _
      · exact List.mem_cons_of_mem _ (hss x h)
    have hcl' : ClosedF g (node :: vis) (node :: stack) := by
      intro x hx hxs y hedge
      have hxne : x ≠ node := fun hh => hxs (hh ▸ List.mem_cons_self _ _)
      have hxv : x ∈ vis := by
        rcases List.mem_cons.mp hx with h | h
        · exact absurd h hxne
        · exact h
      have hxstk : x ∉ stack := fun hh => hxs (List.mem_cons_of_mem _ hh)
      obtain ⟨hyv, hys⟩ := hcl x hxv hxstk y hedge
      refine ⟨List.mem_cons_of_mem _ hyv, ?_⟩
      intro hy
      rcases List.mem_cons.mp hy with h | h
      · exact hnv (h ▸ hyv)
      · exact hys h
    have hnc' : NoCycF g (node :: vis) (node :: stack) := by
      intro x hx hxs
      have hxne : x ≠ node := fun hh => hxs (hh ▸ List.mem_cons_self _ _)
      have hxv : x ∈ vis := by
        rcases List.mem_cons.mp hx with h | h
        · exact absurd h hxne
        · exact h
      exact hnc x hxv (fun hh => hxs (List.mem_cons_of_mem _ hh))
    have hcount' : countUnvisited g (node :: vis) < f := by
      have h1 := countUnvisited_cons_lt (g := g) hnk hnv
      omega
    obtain ⟨hsub, hdeps', hcl2, hnc2⟩ :=
      dfsDepsWith_false_inv ht (hasCyclesDFS g f) node stack f
        (fun d visx b0 v0 hc hd hdk hsx hclx hncx heq0 hb0 =>
          ih d visx (node :: stack) b0 v0 hc hd hdk hsx hclx hncx heq0 hb0)
        (depsOf g node) (node :: vis) b v' hcount' (fun d hd => hd) hss' hcl' hnc' heq hb
    have hnodev : node ∈ v' := hsub node (List.mem_cons_self _ _)
    refine ⟨fun x hx => hsub x (List.mem_cons_of_mem _ hx), hnodev, ?_, ?_⟩
    · intro x hx hxs y hedge
      by_cases hxn : x = node
      · subst hxn
        obtain ⟨hyv, hys⟩ := hdeps' y hedge
        exact ⟨hyv, fun hh => hys (List.mem_cons_of_mem _ hh)⟩
      · have hxs' : x ∉ node :: stack := by
          intro hh
          rcases List.mem_cons.mp hh with h | h
          · exact hxn h
          · exact hxs h
        obtain ⟨hyv, hys⟩ := hcl2 x hx hxs' y hedge
        exact ⟨hyv, fun hh => hys (List.mem_cons_of_mem _ hh)⟩
    · intro x hx hxs hcyc
      by_cases hxn : x = node
      · subst hxn
        obtain ⟨d, hedge, hrt⟩ := (Relation.TransGen.head'_iff).mp hcyc
        obtain ⟨hdv, hds⟩ := hdeps' d hedge
        rcases (Relation.reflTransGen_iff_eq_or_transGen).mp hrt with heq2 | htrans
        · subst heq2
          exact hds (List.mem_cons_self _ _)
        · obtain ⟨_, hxs2⟩ := closedF_reach hcl2 hdv hds htrans
          exact hxs2 (List.mem_cons_self _ _)
      · have hxs' : x ∉ node :: stack := by
          intro hh
          rcases List.mem_cons.mp hh with h | h
          · exact hxn h
          · exact hxs h
        exact hnc2 x hx hxs' hcyc

theorem countUnvisited_lt_dfsFuel (g : JobGraph) (vis : List String) :
    countUnvisited g vis < dfsFuel g := by
  have h1 : countUnvisited g vis ≤ (jobKeys g).length := List.length_filter_le _ _
  have h2 : (jobKeys g).length = g.jobs.length := by simp [jobKeys]
  simp only [dfsFuel]
  omega

/-- Completeness of the outer loop: when no DFS run reports a cycle,
no root lies on a cycle. -/
theorem hasCyclesOuter_false_inv {g : JobGraph} (ht : TargetsRegistered g) :
    ∀ roots vis, (∀ n ∈ roots, n ∈ jobKeys g) →
      ClosedF g vis [] → NoCycF g vis [] →
      hasCyclesOuter g (dfsFuel g) roots vis = false →
      ∀ n ∈ roots, ¬ Relation.TransGen (edgeOf g) n n := by
  intro roots
  induction roots with
  | nil => intro vis _ _ _ _ n hn; simp at hn
  | cons m rest ih =>
    intro vis hroots hcl hnc heq n hn
    simp only [hasCyclesOuter] at heq
    split at heq
    · rename_i hm
      rcases List.mem_cons.mp hn with h | h
      · subst h
        exact hnc n (contains_iff.mp hm) (List.not_mem_nil n)
      · exact ih vis (fun x hx => hroots x (List.mem_cons_of_mem _ hx)) hcl hnc heq n h
    · rename_i hm
      have hmnv : m ∉ vis := fun hmem => hm (contains_iff.mpr hmem)
      rcases hres : hasCyclesDFS g (dfsFuel g) m vis [] with ⟨b, v'⟩
      rw [hres] at heq
      cases b
      · obtain ⟨hsub, hm', hcl', hnc'⟩ := hasCyclesDFS_false_inv ht (dfsFuel g) m vis []
          false v' (countUnvisited_lt_dfsFuel g vis) hmnv (hroots m (List.mem_cons_self _ _))
          (fun x hx => absurd hx (List.not_mem_nil x)) hcl hnc hres rfl
        rcases List.mem_cons.mp hn with h | h
        · subst h
          exact hnc' n hm' (List.not_mem_nil n)
        · exact ih v' (fun x hx => hroots x (List.mem_cons_of_mem _ hx)) hcl' hnc' heq n h
      · simp at heq

/-- C6: for every JobGraph whose dependency edges all target
registered jobs, `HasCycles` returns true if and only if the directed
dependency graph contains a cycle (some registered job reaches itself
through one or more dependency edges). -/
theorem HasCycles_iff_cycle (g : JobGraph) (ht : TargetsRegistered g) :
    HasCycles g = true ↔ HasCycleProp g := by
  constructor
  · exact fun h => hasCyclesOuter_sound ht (dfsFuel g) (jobKeys g) [] h
  · intro hcyc
    obtain ⟨n, hn, htrans⟩ := hcyc
    cases hHC : HasCycles g
    · exact absurd htrans (hasCyclesOuter_false_inv ht (jobKeys g) [] (fun x hx => hx)
        (fun x hx => absurd hx (List.not_mem_nil x))
        (fun x hx => absurd hx (List.not_mem_nil x)) hHC n hn)
    · rfl

/-- Two jobs depending on each other: a cyclic graph. -/
def cycleJobs : List Job :=
  [{ name := "A", type := "t", dependsOn := ["B"], timeout := "", retries := 0, config := [] },
   { name := "B", type := "t", dependsOn := ["A"], timeout := "", retries := 0, config := [] }]

/-- The diamond-free DAG from the spec's scenario: `A`, then `B` and
`C` both depending on `A`. -/
def dagJobs : List Job :=
  [{ name := "A", type := "t", dependsOn := [], timeout := "", retries := 0, config := [] },
   { name := "B", type := "t", dependsOn := ["A"], timeout := "", retries := 0, config := [] },
   { name := "C", type := "t", dependsOn := ["A"], timeout := "", retries := 0, config := [] }]

/-- C6 witness: on the two-job mutual-dependency graph `HasCycles`
answers true, which by the theorem yields a real cycle; on the
three-job DAG it answers false, which refutes any claimed cycle. -/
theorem HasCycles_iff_cycle_witness :
    HasCycleProp (buildDependencyGraph cycleJobs)
    ∧ ¬ HasCycleProp (buildDependencyGraph dagJobs) := by
  constructor
  · exact (HasCycles_iff_cycle (buildDependencyGraph cycleJobs) (by decide)).mp rfl
  · intro h
    exact absurd ((HasCycles_iff_cycle (buildDependencyGraph dagJobs) (by decide)).mpr h)
      (by decide)

/-- A graph on which the DFS answers false contains no cycle (helper
packaging of the completeness lemmas). -/
theorem hasCycles_false_no_cycle {g : JobGraph} (ht : TargetsRegistered g)
    (h : HasCycles g = false) : ¬ HasCycleProp g := by
  intro hcyc
  obtain ⟨n, hn, htrans⟩ := hcyc
  exact hasCyclesOuter_false_inv ht (jobKeys g) [] (fun x hx => hx)
    (fun x hx => absurd hx (List.not_mem_nil x))
    (fun x hx => absurd hx (List.not_mem_nil x)) h n hn htrans

/-- A graph with no cycle is passed by the DFS (helper packaging of
the soundness lemmas). -/
theorem no_cycle_hasCycles_false {g : JobGraph} (ht : TargetsRegistered g)
    (h : ¬ HasCycleProp g) : HasCycles g = false := by
  cases hHC : HasCycles g
  · rfl
  · exact absurd (hasCyclesOuter_sound ht (dfsFuel g) (jobKeys g) [] hHC) h

/-! ### Executor (`part_003`, `executor.go`) -/

/-- `Executor.executeJob` (`part_003:97-111`): dispatch through
`ExecutePlugin` and map the outcome to success/failure plus message
and data (`nil` data on dispatch error becomes `[]`). -/
def executeJob (pm : Manager) (ctx : Ctx) (job : Job) : Bool × String × Config :=
  match ExecutePlugin pm ctx job.type job.config with
  | Except.error e => (false, "Failed to execute job: " ++ e, [])
  | Except.ok r => if !r.success then (false, r.message, r.data) else (true, r.message, r.data)

/-- The goroutine body of a dispatched task (`part_003:44-70`): in
dry-run mode sleep and report a fixed success, otherwise call
`executeJob`.  Timestamps are elided. -/
def runJob (pm : Manager) (ctx : Ctx) (dryRun : Bool) (job : Job) : JobResult :=
  if dryRun then
    { name := job.name, type := job.type, success := true,
      message := "Dry run simulation", data := [] }
  else
    let r := executeJob pm ctx job
    { name := job.name, type := job.type, success := r.1, message := r.2.1, data := r.2.2 }

/-- The post-barrier result loop (`part_003:77-87`): append each
JobResult to the accumulator in dispatch order; mark successful jobs
completed; on the first failure return its error immediately — the
remaining results of the wave are neither appended nor marked. -/
def processResults : JobGraph → List JobResult → List JobResult →
    List JobResult × JobGraph × Option String
  | g, acc, [] => (acc, g, none)
  | g, acc, r :: rest =>
    if r.success then processResults (MarkCompleted g r.name) (acc ++ [r]) rest
    else (acc ++ [r], g, some ("job " ++ r.name ++ " failed: " ++ r.message))

/-- The wave loop of `ExecuteGraph` (`part_003:36-91`): while some
jobs are ready, run them all (the barrier is implicit: the whole wave's
results are computed before any is processed), process the results,
and recompute the ready set.  Fuel bounds the number of waves;
`ExecuteGraph` supplies `g.jobs.length + 1`, which always suffices
because every completed wave marks at least one job. -/
def executeGraphLoop (pm : Manager) (ctx : Ctx) (dryRun : Bool) :
    Nat → JobGraph → List JobResult → Option (List JobResult × JobGraph × Except String Unit)
  | 0, _, _ => none
  | fuel + 1, g, acc =>
    let ready := GetReadyJobs g
    if ready.isEmpty then some (acc, g, Except.ok ())
    else
      match processResults g acc (ready.map (runJob pm ctx dryRun)) with
      | (acc', g', some e) => some (acc', g', Except.error e)
      | (acc', g', none) => executeGraphLoop pm ctx dryRun fuel g' acc'

/-- `Executor.ExecuteGraph` (`part_003:26-94`): reject a cyclic graph,
then drain it wave by wave, mutating the stage result's job list. -/
def ExecuteGraph (pm : Manager) (ctx : Ctx) (g : JobGraph) (stageResult : StageResult)
    (dryRun : Bool) : Option (StageResult × JobGraph × Except String Unit) :=
  if HasCycles g then
    some (stageResult, g, Except.error "dependency cycle detected in job graph")
  else
    match executeGraphLoop pm ctx dryRun (g.jobs.length + 1) g stageResult.jobs with
    | none => none
    | some (jobsAcc, g', e) => some ({ stageResult with jobs := jobsAcc }, g', e)

/-- Whether the dispatched task for this job reports success. -/
def jobSucceeds (pm : Manager) (ctx : Ctx) (dryRun : Bool) (job : Job) : Bool :=
  (runJob pm ctx dryRun job).success

/-- Marking a batch of names completed, the graph evolution of one
successful wave. -/
def markCompletedAll (g : JobGraph) (names : List String) : JobGraph :=
  names.foldl MarkCompleted g

theorem markCompleted_jobs (g : JobGraph) (n : String) :
    (MarkCompleted g n).jobs = g.jobs := by
  unfold MarkCompleted; split <;> rfl

theorem markCompleted_dependencies (g : JobGraph) (n : String) :
    (MarkCompleted g n).dependencies = g.dependencies := by
  unfold MarkCompleted; split <;> rfl

theorem markCompleted_completed_iff (g : JobGraph) (n x : String) :
    x ∈ (MarkCompleted g n).completed ↔ x = n ∨ x ∈ g.completed := by
  unfold MarkCompleted
  split
  · rename_i h
    constructor
    · exact fun hx => Or.inr hx
    · rintro (rfl | hx)
      · exact contains_iff.mp h
      · exact hx
  · simp [List.mem_cons]

theorem markCompletedAll_jobs (names : List String) :
    ∀ g : JobGraph, (markCompletedAll g names).jobs = g.jobs := by
  induction names with
  | nil => intro g; rfl
  | cons n t ih =>
    intro g
    calc (markCompletedAll g (n :: t)).jobs
        = (markCompletedAll (MarkCompleted g n) t).jobs := rfl
      _ = (MarkCompleted g n).jobs := ih _
      _ = g.jobs := markCompleted_jobs g n

theorem markCompletedAll_dependencies (names : List String) :
    ∀ g : JobGraph, (markCompletedAll g names).dependencies = g.dependencies := by
  induction names with
  | nil => intro g; rfl
  | cons n t ih =>
    intro g
    calc (markCompletedAll g (n :: t)).dependencies
        = (MarkCompleted g n).dependencies := ih _
      _ = g.dependencies := markCompleted_dependencies g n

theorem markCompletedAll_completed_iff (names : List String) :
    ∀ (g : JobGraph) (x : String),
      x ∈ (markCompletedAll g names).completed ↔ x ∈ names ∨ x ∈ g.completed := by
  induction names with
  | nil => intro g x; simp [markCompletedAll]
  | cons n t ih =>
    intro g x
    calc x ∈ (markCompletedAll g (n :: t)).completed
        ↔ x ∈ (markCompletedAll (MarkCompleted g n) t).completed := Iff.rfl
      _ ↔ x ∈ t ∨ x ∈ (MarkCompleted g n).completed := ih _ x
      _ ↔ x ∈ t ∨ (x = n ∨ x ∈ g.completed) := by
            rw [markCompleted_completed_iff]
      _ ↔ x ∈ n :: t ∨ x ∈ g.completed := by
            simp [List.mem_cons]
            tauto

theorem markCompletedAll_jobKeys (g : JobGraph) (names : List String) :
    jobKeys (markCompletedAll g names) = jobKeys g := by
  unfold jobKeys
  rw [markCompletedAll_jobs]

theorem markCompletedAll_depsOf (g : JobGraph) (names : List String) (a : String) :
    depsOf (markCompletedAll g names) a = depsOf g a := by
  unfold depsOf
  rw [markCompletedAll_dependencies]

theorem markCompletedAll_edgeOf (g : JobGraph) (names : List String) :
    edgeOf (markCompletedAll g names) = edgeOf g := by
  funext a b
  unfold edgeOf
  rw [markCompletedAll_depsOf]

theorem markCompletedAll_targets {g : JobGraph} (names : List String)
    (ht : TargetsRegistered g) : TargetsRegistered (markCompletedAll g names) := by
  unfold TargetsRegistered at ht ⊢
  rw [markCompletedAll_dependencies, markCompletedAll_jobKeys]
  exact ht

theorem markCompletedAll_noCycle {g : JobGraph} (names : List String)
    (h : ¬ HasCycleProp g) : ¬ HasCycleProp (markCompletedAll g names) := by
  unfold HasCycleProp at h ⊢
  rw [markCompletedAll_jobKeys, markCompletedAll_edgeOf]
  exact h

theorem processResults_none_spec :
    ∀ (results : List JobResult) (g : JobGraph) (acc acc' : List JobResult) (g' : JobGraph),
      processResults g acc results = (acc', g', none) →
      acc' = acc ++ results ∧ (∀ r ∈ results, r.success = true) ∧
      g' = markCompletedAll g (results.map (fun r => r.name)) := by
  intro results
  induction results with
  | nil =>
    intro g acc acc' g' h
    simp only [processResults, Prod.mk.injEq] at h
    obtain ⟨h1, h2, _⟩ := h
    exact ⟨by simp [h1], by simp, by simp [markCompletedAll, h2]⟩
  | cons r rest ih =>
    intro g acc acc' g' h
    simp only [processResults] at h
    split at h
    · rename_i hs
      obtain ⟨h1, h2, h3⟩ := ih (MarkCompleted g r.name) (acc ++ [r]) acc' g' h
      refine ⟨by simp [h1], ?_, by simpa [markCompletedAll] using h3⟩
      intro x hx
      rcases List.mem_cons.mp hx with hh | hh
      · subst hh; exact hs
      · exact h2 x hh
    · simp [Prod.mk.injEq] at h

theorem processResults_some_spec :
    ∀ (results : List JobResult) (g : JobGraph) (acc acc' : List JobResult) (g' : JobGraph)
      (e : String),
      processResults g acc results = (acc', g', some e) →
      ∃ pre fail rest, results = pre ++ fail :: rest ∧ (∀ r ∈ pre, r.success = true) ∧
        fail.success = false ∧ acc' = acc ++ pre ++ [fail] ∧
        g' = markCompletedAll g (pre.map (fun r => r.name)) ∧
        e = "job " ++ fail.name ++ " failed: " ++ fail.message := by
  intro results
  induction results with
  | nil =>
    intro g acc acc' g' e h
    simp [processResults, Prod.mk.injEq] at h
  | cons r rest ih =>
    intro g acc acc' g' e h
    simp only [processResults] at h
    split at h
    · rename_i hs
      obtain ⟨pre, fail, rest', h1, h2, h3, h4, h5, h6⟩ :=
        ih (MarkCompleted g r.name) (acc ++ [r]) acc' g' e h
      refine ⟨r :: pre, fail, rest', by simp [h1], ?_, h3, by simp [h4], ?_, h6⟩
      · intro x hx
        rcases List.mem_cons.mp hx with hh | hh
        · subst hh; exact hs
        · exact h2 x hh
      · simpa [markCompletedAll] using h5
    · rename_i hs
      simp only [Prod.mk.injEq, Option.some.injEq] at h
      obtain ⟨h1, h2, h3⟩ := h
      refine ⟨[], r, rest, by simp, by simp, ?_, by simp [h1], by simp [markCompletedAll, h2], h3.symm⟩
      simpa using hs

/-- One wave with a failure: the accumulator receives the results up
to and including the first failed job (in dispatch order), the
successful prefix is marked completed, and the returned error names
the first failed job and its message — results after the first failure
are discarded. -/
theorem processResults_split (g : JobGraph) :
    ∀ (pre acc : List JobResult) (fail : JobResult) (rest : List JobResult),
      (∀ r ∈ pre, r.success = true) → fail.success = false →
      processResults g acc (pre ++ fail :: rest)
        = (acc ++ pre ++ [fail], markCompletedAll g (pre.map (fun r => r.name)),
           some ("job " ++ fail.name ++ " failed: " ++ fail.message)) := by
  intro pre
  induction pre generalizing g with
  | nil =>
    intro acc fail rest _ hfail
    simp [processResults, hfail, markCompletedAll]
  | cons r pre' ih =>
    intro acc fail rest hpre hfail
    have hr : r.success = true := hpre r (List.mem_cons_self _ _)
    simp only [List.cons_append, processResults, hr, if_true, List.append_eq]
    rw [ih (MarkCompleted g r.name) (acc ++ [r]) fail rest
      (fun x hx => hpre x (List.mem_cons_of_mem _ hx)) hfail]
    simp [markCompletedAll]

theorem runJob_name (pm : Manager) (ctx : Ctx) (dryRun : Bool) (j : Job) :
    (runJob pm ctx dryRun j).name = j.name := by
  unfold runJob; split <;> rfl

theorem mem_getReadyJobs {g : JobGraph} {j : Job} :
    j ∈ GetReadyJobs g ↔ ∃ p, p ∈ g.jobs ∧ p.2 = j ∧ p.1 ∉ g.completed ∧
      ∀ d ∈ depsOf g p.1, d ∈ g.completed := by
  unfold GetReadyJobs
  rw [List.mem_filterMap]
  constructor
  · rintro ⟨p, hp, hf⟩
    split at hf
    · cases hf
    · split at hf
      · rename_i hc hall
        cases hf
        refine ⟨p, hp, rfl, fun hmem => hc (contains_iff.mpr hmem), ?_⟩
        intro d hd
        exact contains_iff.mp (List.all_eq_true.mp hall d hd)
      · cases hf
  · rintro ⟨p, hp, rfl, hc, hd⟩
    refine ⟨p, hp, ?_⟩
    have h1 : g.completed.contains p.1 = false := by
      cases hq : g.completed.contains p.1
      · rfl
      · exact absurd (contains_iff.mp hq) hc
    have h2 : (depsOf g p.1).all (fun d => g.completed.contains d) = true :=
      List.all_eq_true.mpr (fun d hdm => contains_iff.mpr (hd d hdm))
    simp only [h1, Bool.false_eq_true, if_false, h2, if_true]

theorem ready_aux_sublist (g : JobGraph) :
    ∀ l : List (String × Job), (∀ p ∈ l, p.2.name = p.1) →
      ((l.filterMap (fun p =>
        if g.completed.contains p.1 then none
        else if (depsOf g p.1).all (fun d => g.completed.contains d) then some p.2
        else none)).map (fun j => j.name)).Sublist (l.map (fun p => p.1)) := by
  intro l
  induction l with
  | nil => simp
  | cons p t ih =>
    intro hk
    have ih' := ih (fun q hq => hk q (List.mem_cons_of_mem _ hq))
    by_cases h1 : g.completed.contains p.1 = true
    · simp only [List.filterMap_cons, h1, if_true, List.map_cons]
      exact List.Sublist.cons _ ih'
    · by_cases h2 : ((depsOf g p.1).all fun d => g.completed.contains d) = true
      · simp only [List.filterMap_cons, h1, h2, if_true, if_false, ite_false,
          Bool.false_eq_true, List.map_cons]
        rw [hk p (List.mem_cons_self _ _)]
        exact List.Sublist.cons₂ _ ih'
      · simp only [List.filterMap_cons, h1, h2, if_false, ite_false,
          Bool.false_eq_true, List.map_cons]
        exact List.Sublist.cons _ ih'

/-- Under the map invariant (each `g.jobs` entry is keyed by its job's
name), the names of the ready jobs form a sublist of the registered
keys — in particular they are distinct for a well-formed graph. -/
theorem readyNames_sublist {g : JobGraph} (hkey : ∀ p ∈ g.jobs, p.2.name = p.1) :
    ((GetReadyJobs g).map (fun j => j.name)).Sublist (jobKeys g) :=
  ready_aux_sublist g g.jobs hkey

theorem isCompleted_iff {g : JobGraph} :
    IsCompleted g = true ↔ ∀ p ∈ g.jobs, p.1 ∈ g.completed := by
  unfold IsCompleted
  rw [List.all_eq_true]
  constructor <;> intro h p hp
  · exact contains_iff.mp (h p hp)
  · exact contains_iff.mpr (h p hp)

theorem length_le_of_nodup_subset :
    ∀ (l u : List String), l.Nodup → (∀ x ∈ l, x ∈ u) → l.length ≤ u.length := by
  intro l
  induction l with
  | nil => intro u _ _; simp
  | cons a t ih =>
    intro u hnd hsub
    obtain ⟨s, w, rfl⟩ := List.append_of_mem (hsub a (List.mem_cons_self _ _))
    have hant : a ∉ t := (List.nodup_cons.mp hnd).1
    have hsub' : ∀ x ∈ t, x ∈ s ++ w := by
      intro x hx
      have hxu := hsub x (List.mem_cons_of_mem _ hx)
      have hxa : x ≠ a := fun hh => hant (hh ▸ hx)
      rcases List.mem_append.mp hxu with h | h
      · exact List.mem_append.mpr (Or.inl h)
      · rcases List.mem_cons.mp h with h2 | h2
        · exact absurd h2 hxa
        · exact List.mem_append.mpr (Or.inr h2)
    have := ih (s ++ w) (List.nodup_cons.mp hnd).2 hsub'
    simp only [List.length_append, List.length_cons] at this ⊢
    omega

theorem exists_dup_of_not_nodup :
    ∀ l : List String, ¬ l.Nodup → ∃ a s t w, l = s ++ a :: (t ++ a :: w) := by
  intro l
  induction l with
  | nil => intro h; exact absurd List.nodup_nil h
  | cons b l' ih =>
    intro h
    rw [List.nodup_cons] at h
    by_cases hb : b ∈ l'
    · obtain ⟨t, w, rfl⟩ := List.append_of_mem hb
      exact ⟨b, [], t, w, rfl⟩
    · have hnd : ¬ l'.Nodup := fun hh => h ⟨hb, hh⟩
      obtain ⟨a, s, t, w, rfl⟩ := ih hnd
      exact ⟨a, b :: s, t, w, rfl⟩

theorem chain'_transGen {r : String → String → Prop} :
    ∀ (l : List String) (a b : String), List.Chain' r (a :: l) → b ∈ l →
      Relation.TransGen r a b := by
  intro l
  induction l with
  | nil => intro a b _ hb; simp at hb
  | cons c l' ih =>
    intro a b hch hb
    have hac : r a c := (List.chain'_cons.mp hch).1
    rcases List.mem_cons.mp hb with h | h
    · subst h; exact Relation.TransGen.single hac
    · exact Relation.TransGen.head hac (ih c b (List.chain'_cons.mp hch).2 h)

/-- Progress: on a graph whose edges target registered jobs and which
has no cycle, an empty ready set means every registered job is
completed (otherwise an uncompleted job with an uncompleted dependency
could be followed forever, and by pigeonhole some job would repeat,
yielding a cycle). -/
theorem ready_empty_isCompleted {g : JobGraph}
    (ht : TargetsRegistered g) (hacyc : ¬ HasCycleProp g)
    (h : GetReadyJobs g = []) : IsCompleted g = true := by
  by_contra hic
  rw [isCompleted_iff] at hic
  push_neg at hic
  obtain ⟨p0, hp0, hp0c⟩ := hic
  -- the uncompleted registered names
  set U := (jobKeys g).filter (fun x => !g.completed.contains x) with hU
  have hmemU : ∀ x, x ∈ U ↔ x ∈ jobKeys g ∧ x ∉ g.completed := by
    intro x
    rw [hU, List.mem_filter]
    constructor
    · rintro ⟨h1, h2⟩
      refine ⟨h1, fun hmem => ?_⟩
      rw [Bool.not_eq_true'] at h2
      rw [contains_iff.mpr hmem] at h2
      cases h2
    · rintro ⟨h1, h2⟩
      refine ⟨h1, ?_⟩
      rw [Bool.not_eq_true']
      cases hq : g.completed.contains x
      · rfl
      · exact absurd (contains_iff.mp hq) h2
  -- every uncompleted job has an uncompleted dependency
  have hstep : ∀ u ∈ U, ∃ d, d ∈ U ∧ edgeOf g u d := by
    intro u hu
    obtain ⟨huk, huc⟩ := (hmemU u).mp hu
    obtain ⟨q, hq, hqname⟩ := List.mem_map.mp huk
    by_cases hall : ∀ d ∈ depsOf g u, d ∈ g.completed
    · exfalso
      have : q.2 ∈ GetReadyJobs g := by
        rw [mem_getReadyJobs]
        exact ⟨q, hq, rfl, by rw [hqname]; exact huc, by rw [hqname]; exact hall⟩
      rw [h] at this
      exact absurd this (List.not_mem_nil _)
    · push_neg at hall
      obtain ⟨d, hd, hdc⟩ := hall
      have hdk : d ∈ jobKeys g := targets_edge ht hd
      exact ⟨d, (hmemU d).mpr ⟨hdk, hdc⟩, hd⟩
  -- build arbitrarily long chains inside U
  have hchain : ∀ k : Nat, ∀ u ∈ U, ∃ xs : List String, xs.length = k ∧
      (∀ x ∈ xs, x ∈ U) ∧ List.Chain' (edgeOf g) (u :: xs) := by
    intro k
    induction k with
    | zero => intro u _; exact ⟨[], rfl, by simp, List.chain'_singleton u⟩
    | succ k ih =>
      intro u hu
      obtain ⟨d, hdU, hedge⟩ := hstep u hu
      obtain ⟨xs, hlen, hsub, hch⟩ := ih d hdU
      exact ⟨d :: xs, by simp [hlen], by
        intro x hx
        rcases List.mem_cons.mp hx with hh | hh
        · subst hh; exact hdU
        · exact hsub x hh, List.chain'_cons.mpr ⟨hedge, hch⟩⟩
  have hp0U : p0.1 ∈ U := (hmemU p0.1).mpr ⟨List.mem_map.mpr ⟨p0, hp0, rfl⟩, hp0c⟩
  obtain ⟨xs, hlen, hsub, hch⟩ := hchain (U.length + 1) p0.1 hp0U
  have hsubAll : ∀ x ∈ p0.1 :: xs, x ∈ U := by
    intro x hx
    rcases List.mem_cons.mp hx with hh | hh
    · subst hh; exact hp0U
    · exact hsub x hh
  have hnotnd : ¬ (p0.1 :: xs).Nodup := by
    intro hnd
    have := length_le_of_nodup_subset (p0.1 :: xs) U hnd hsubAll
    simp only [List.length_cons, hlen] at this
    omega
  obtain ⟨a, s, t, w, hsplit⟩ := exists_dup_of_not_nodup _ hnotnd
  have hchsuffix : List.Chain' (edgeOf g) (a :: (t ++ a :: w)) := by
    have hfull : List.Chain' (edgeOf g) (s ++ a :: (t ++ a :: w)) := hsplit ▸ hch
    exact hfull.right_of_append
  have hcyc : Relation.TransGen (edgeOf g) a a :=
    chain'_transGen (t ++ a :: w) a a hchsuffix
      (List.mem_append.mpr (Or.inr (List.mem_cons_self _ _)))
  have haU : a ∈ U := by
    apply hsubAll
    rw [hsplit]
    exact List.mem_append.mpr (Or.inr (List.mem_cons_self _ _))
  exact hacyc ⟨a, ((hmemU a).mp haU).1, hcyc⟩

/-- Uncompleted registered jobs, the executor's loop measure. -/
def countUncompleted (g : JobGraph) : Nat := countUnvisited g g.completed

theorem countUnvisited_congr {g g' : JobGraph} (h : jobKeys g' = jobKeys g)
    (v : List String) : countUnvisited g' v = countUnvisited g v := by
  unfold countUnvisited
  rw [h]

theorem wave_count_lt {g : JobGraph} {names : List String}
    (hx : ∃ n, n ∈ names ∧ n ∈ jobKeys g ∧ n ∉ g.completed) :
    countUncompleted (markCompletedAll g names) < countUncompleted g := by
  obtain ⟨n, hn, hk, hnc⟩ := hx
  unfold countUncompleted
  rw [countUnvisited_congr (markCompletedAll_jobKeys g names)]
  have h1 : countUnvisited g (markCompletedAll g names).completed
      ≤ countUnvisited g (n :: g.completed) := by
    apply countUnvisited_mono
    intro x hxm
    rcases List.mem_cons.mp hxm with hh | hh
    · subst hh; exact (markCompletedAll_completed_iff names g x).mpr (Or.inl hn)
    · exact (markCompletedAll_completed_iff names g x).mpr (Or.inr hh)
  have h2 : countUnvisited g (n :: g.completed) < countUnvisited g g.completed :=
    countUnvisited_cons_lt hk hnc
  omega

/-- Every result of a wave comes from a registered, uncompleted job
entry whose key is the result's name and whose task outcome is the
result's success flag. -/
theorem result_mem_spec {pm : Manager} {ctx : Ctx} {dryRun : Bool} {g : JobGraph}
    (hkey : ∀ p ∈ g.jobs, p.2.name = p.1) {r : JobResult}
    (hr : r ∈ (GetReadyJobs g).map (runJob pm ctx dryRun)) :
    ∃ p, p ∈ g.jobs ∧ p.1 = r.name ∧ p.1 ∉ g.completed ∧
      jobSucceeds pm ctx dryRun p.2 = r.success := by
  obtain ⟨j, hj, rfl⟩ := List.mem_map.mp hr
  obtain ⟨p, hp, hpj, hpc, _⟩ := mem_getReadyJobs.mp hj
  refine ⟨p, hp, ?_, hpc, ?_⟩
  · rw [runJob_name, ← hpj]
    exact (hkey p hp).symm
  · rw [hpj]
    rfl

theorem resultNames_eq (pm : Manager) (ctx : Ctx) (dryRun : Bool) (g : JobGraph) :
    ((GetReadyJobs g).map (runJob pm ctx dryRun)).map (fun r => r.name)
      = (GetReadyJobs g).map (fun j => j.name) := by
  rw [List.map_map]
  apply List.map_congr_left
  intro j _
  exact runJob_name pm ctx dryRun j

theorem resultNames_nodup {pm : Manager} {ctx : Ctx} {dryRun : Bool} {g : JobGraph}
    (hnd : (jobKeys g).Nodup) (hkey : ∀ p ∈ g.jobs, p.2.name = p.1) :
    (((GetReadyJobs g).map (runJob pm ctx dryRun)).map (fun r => r.name)).Nodup := by
  rw [resultNames_eq]
  exact (readyNames_sublist hkey).nodup hnd

theorem assoc_entry_unique :
    ∀ (l : List (String × Job)), (l.map (fun p => p.1)).Nodup →
      ∀ p q : String × Job, p ∈ l → q ∈ l → p.1 = q.1 → p = q := by
  intro l
  induction l with
  | nil => intro _ p q hp; simp at hp
  | cons a t ih =>
    intro hnd p q hp hq hpq
    simp only [List.map_cons, List.nodup_cons] at hnd
    rcases List.mem_cons.mp hp with h1 | h1 <;> rcases List.mem_cons.mp hq with h2 | h2
    · rw [h1, h2]
    · exfalso
      apply hnd.1
      have hq1 : q.1 = a.1 := by rw [← hpq, h1]
      exact List.mem_map.mpr ⟨q, h2, hq1⟩
    · exfalso
      apply hnd.1
      have hp1 : p.1 = a.1 := by rw [hpq, h2]
      exact List.mem_map.mpr ⟨p, h1, hp1⟩
    · exact ih hnd.2 p q h1 h2 hpq

/-- The wave loop terminates within the supplied fuel and satisfies
the executor's contract: the completed set only grows, every newly
completed name belongs to a registered job whose task succeeded, the
loop returns `ok` exactly when the graph ends fully completed, and it
does return `ok` whenever every uncompleted job's task succeeds. -/
theorem executeGraphLoop_spec (pm : Manager) (ctx : Ctx) (dryRun : Bool) :
    ∀ (fuel : Nat) (g : JobGraph) (acc : List JobResult),
      countUncompleted g < fuel →
      (jobKeys g).Nodup →
      (∀ p ∈ g.jobs, p.2.name = p.1) →
      TargetsRegistered g → ¬ HasCycleProp g →
      ∃ acc' g' e, executeGraphLoop pm ctx dryRun fuel g acc = some (acc', g', e) ∧
        g'.jobs = g.jobs ∧
        (∀ x ∈ g.completed, x ∈ g'.completed) ∧
        (∀ x ∈ g'.completed, x ∈ g.completed ∨
          ∃ p, p ∈ g.jobs ∧ p.1 = x ∧ jobSucceeds pm ctx dryRun p.2 = true) ∧
        (e = Except.ok () ↔ IsCompleted g' = true) ∧
        ((∀ p ∈ g.jobs, p.1 ∉ g.completed → jobSucceeds pm ctx dryRun p.2 = true) →
          e = Except.ok ()) := by
  intro fuel
  induction fuel with
  | zero =>
    intro g acc hcount
    exact absurd hcount (Nat.not_lt_zero _)
  | succ f ih =>
    intro g acc hcount hnd hkey ht hacyc
    by_cases hre : (GetReadyJobs g).isEmpty = true
    · have hic : IsCompleted g = true :=
        ready_empty_isCompleted ht hacyc (List.isEmpty_iff.mp hre)
      refine ⟨acc, g, Except.ok (), ?_, rfl, fun x hx => hx, fun x hx => Or.inl hx,
        by simp [hic], fun _ => rfl⟩
      simp [executeGraphLoop, hre]
    · have hrne : GetReadyJobs g ≠ [] := by
        intro hh
        rw [hh] at hre
        exact hre rfl
      have hreF : (GetReadyJobs g).isEmpty = false := by
        cases hq : (GetReadyJobs g).isEmpty
        · rfl
        · exact absurd hq hre
      rcases hproc : processResults g acc ((GetReadyJobs g).map (runJob pm ctx dryRun))
        with ⟨acc0, g0, me⟩
      cases me with
      | some e0 =>
        obtain ⟨pre, fail, rest, hsplit, hpre, hfail, hacc0, hg0, he0⟩ :=
          processResults_some_spec _ g acc acc0 g0 e0 hproc
        have hloop : executeGraphLoop pm ctx dryRun (f + 1) g acc
            = some (acc0, g0, Except.error e0) := by
          simp only [executeGraphLoop, hreF, Bool.false_eq_true, if_false, hproc]
        -- the failed job's entry
        have hfailmem : fail ∈ (GetReadyJobs g).map (runJob pm ctx dryRun) := by
          rw [hsplit]
          exact List.mem_append.mpr (Or.inr (List.mem_cons_self _ _))
        obtain ⟨pf, hpf, hpfn, hpfc, hpfs⟩ := result_mem_spec hkey hfailmem
        -- fail's name is not among the marked prefix
        have hfailpre : fail.name ∉ pre.map (fun r => r.name) := by
          have hnodup : (((GetReadyJobs g).map (runJob pm ctx dryRun)).map
              (fun r => r.name)).Nodup := resultNames_nodup hnd hkey
          rw [hsplit] at hnodup
          simp only [List.map_append, List.map_cons] at hnodup
          have := (List.nodup_append.mp hnodup).2.2
          intro hmem
          exact this hmem (List.mem_cons_self _ _)
        have hfailg0 : fail.name ∉ g0.completed := by
          rw [hg0]
          intro hmem
          rcases (markCompletedAll_completed_iff _ g _).mp hmem with hh | hh
          · exact hfailpre hh
          · exact hpfc (hpfn ▸ hh)
        have hic0 : IsCompleted g0 = false := by
          cases hq : IsCompleted g0
          · rfl
          · exfalso
            have hmem := isCompleted_iff.mp hq pf (by
              rw [hg0, markCompletedAll_jobs]
              exact hpf)
            rw [hpfn] at hmem
            exact hfailg0 hmem
        refine ⟨acc0, g0, Except.error e0, hloop, ?_, ?_, ?_, ?_, ?_⟩
        · rw [hg0]; exact markCompletedAll_jobs _ _
        · intro x hx
          rw [hg0]
          exact (markCompletedAll_completed_iff _ g x).mpr (Or.inr hx)
        · intro x hx
          rw [hg0] at hx
          rcases (markCompletedAll_completed_iff _ g x).mp hx with hh | hh
          · right
            obtain ⟨r, hrpre, hrx⟩ := List.mem_map.mp hh
            have hrmem : r ∈ (GetReadyJobs g).map (runJob pm ctx dryRun) := by
              rw [hsplit]
              exact List.mem_append.mpr (Or.inl hrpre)
            obtain ⟨p, hp, hpn, _, hps⟩ := result_mem_spec hkey hrmem
            exact ⟨p, hp, by rw [hpn, hrx], by rw [hps]; exact hpre r hrpre⟩
          · exact Or.inl hh
        · constructor
          · intro h; exact absurd h (by simp)
          · intro h; rw [hic0] at h; cases h
        · intro hall
          exfalso
          have := hall pf hpf hpfc
          rw [hpfs, hfail] at this
          cases this
      | none =>
        obtain ⟨hacc0, hallsucc, hg0⟩ := processResults_none_spec _ g acc acc0 g0 hproc
        have hloop : executeGraphLoop pm ctx dryRun (f + 1) g acc
            = executeGraphLoop pm ctx dryRun f g0 acc0 := by
          simp only [executeGraphLoop, hreF, Bool.false_eq_true, if_false, hproc]
        -- preconditions for the next wave
        have hjobs0 : g0.jobs = g.jobs := by rw [hg0]; exact markCompletedAll_jobs _ _
        have hcomp0 : ∀ x, x ∈ g0.completed ↔
            x ∈ (((GetReadyJobs g).map (runJob pm ctx dryRun)).map (fun r => r.name))
              ∨ x ∈ g.completed := by
          intro x
          rw [hg0]
          exact markCompletedAll_completed_iff _ g x
        have hcount0 : countUncompleted g0 < f := by
          have hlt : countUncompleted g0 < countUncompleted g := by
            rw [hg0]
            apply wave_count_lt
            obtain ⟨j, hj⟩ := List.exists_mem_of_ne_nil _ hrne
            have hjr : runJob pm ctx dryRun j ∈ (GetReadyJobs g).map (runJob pm ctx dryRun) :=
              List.mem_map.mpr ⟨j, hj, rfl⟩
            obtain ⟨p, hp, hpn, hpc, _⟩ := result_mem_spec hkey hjr
            refine ⟨p.1, ?_, List.mem_map.mpr ⟨p, hp, rfl⟩, hpc⟩
            rw [hpn]
            exact List.mem_map.mpr ⟨runJob pm ctx dryRun j, hjr, rfl⟩
          omega
        have hnd0 : (jobKeys g0).Nodup := by
          unfold jobKeys
          rw [hjobs0]
          exact hnd
        have hkey0 : ∀ p ∈ g0.jobs, p.2.name = p.1 := by
          rw [hjobs0]
          exact hkey
        have ht0 : TargetsRegistered g0 := by
          rw [hg0]
          exact markCompletedAll_targets _ ht
        have hacyc0 : ¬ HasCycleProp g0 := by
          rw [hg0]
          exact markCompletedAll_noCycle _ hacyc
        obtain ⟨acc', g', e, heq', hjobs', hsup', hprov', hiff', hall'⟩ :=
          ih g0 acc0 hcount0 hnd0 hkey0 ht0 hacyc0
        refine ⟨acc', g', e, by rw [hloop]; exact heq', by rw [hjobs', hjobs0], ?_, ?_,
          hiff', ?_⟩
        · intro x hx
          exact hsup' x ((hcomp0 x).mpr (Or.inr hx))
        · intro x hx
          rcases hprov' x hx with hh | ⟨p, hp, hpn, hps⟩
          · rcases (hcomp0 x).mp hh with hh2 | hh2
            · right
              obtain ⟨r, hr, hrx⟩ := List.mem_map.mp hh2
              obtain ⟨p, hp, hpn, _, hps⟩ := result_mem_spec hkey hr
              exact ⟨p, hp, by rw [hpn, hrx], by rw [hps]; exact hallsucc r hr⟩
            · exact Or.inl hh2
          · right
            exact ⟨p, hjobs0 ▸ hp, hpn, hps⟩
        · intro hall
          apply hall'
          intro p hp hpc
          apply hall p (hjobs0 ▸ hp)
          intro hmem
          exact hpc ((hcomp0 p.1).mpr (Or.inr hmem))

/-- C5: for every job graph with unique job names keyed by name, whose
dependency edges all target registered jobs, and which is acyclic,
`ExecuteGraph` terminates (returns `some` within the fuel it supplies
itself); if every job's task succeeds it returns nil and the graph is
fully completed afterwards, and if some uncompleted job's task fails
it returns an error and the graph is not fully completed. -/
theorem ExecuteGraph_correct (pm : Manager) (ctx : Ctx) (dryRun : Bool)
    (g : JobGraph) (sr : StageResult)
    (hnd : (jobKeys g).Nodup) (hkey : ∀ p ∈ g.jobs, p.2.name = p.1)
    (ht : TargetsRegistered g) (hacyc : ¬ HasCycleProp g) :
    ∃ sr' g' e, ExecuteGraph pm ctx g sr dryRun = some (sr', g', e) ∧
      ((∀ p ∈ g.jobs, jobSucceeds pm ctx dryRun p.2 = true) →
        e = Except.ok () ∧ IsCompleted g' = true) ∧
      ((∃ p, p ∈ g.jobs ∧ p.1 ∉ g.completed ∧ jobSucceeds pm ctx dryRun p.2 = false) →
        (∃ msg, e = Except.error msg) ∧ IsCompleted g' = false) := by
  have hHC : HasCycles g = false := no_cycle_hasCycles_false ht hacyc
  have hc : countUncompleted g < g.jobs.length + 1 := by
    have h1 : countUncompleted g ≤ (jobKeys g).length := List.length_filter_le _ _
    have h2 : (jobKeys g).length = g.jobs.length := by simp [jobKeys]
    omega
  obtain ⟨acc', g', e, heq, hjobs', hsup', hprov', hiff', hall'⟩ :=
    executeGraphLoop_spec pm ctx dryRun (g.jobs.length + 1) g sr.jobs hc hnd hkey ht hacyc
  refine ⟨{ sr with jobs := acc' }, g', e, ?_, ?_, ?_⟩
  · simp only [ExecuteGraph, hHC, Bool.false_eq_true, if_false, heq]
  · intro hall
    have he : e = Except.ok () := hall' (fun p hp _ => hall p hp)
    exact ⟨he, hiff'.mp he⟩
  · rintro ⟨p, hp, hpc, hpf⟩
    have hne : e ≠ Except.ok () := by
      intro he
      have hic := hiff'.mp he
      have hpc' : p.1 ∈ g'.completed := isCompleted_iff.mp hic p (hjobs' ▸ hp)
      rcases hprov' p.1 hpc' with h | ⟨q, hq, hq1, hq2⟩
      · exact hpc h
      · have hqp : q = p := assoc_entry_unique g.jobs hnd q p hq hp hq1
        rw [hqp, hpf] at hq2
        cases hq2
    have hic' : IsCompleted g' = false := by
      cases hq : IsCompleted g'
      · rfl
      · exact absurd (hiff'.mpr hq) hne
    refine ⟨?_, hic'⟩
    cases e with
    | ok u => exact absurd rfl hne
    | error msg => exact ⟨msg, rfl⟩

/-- A handler that reports success with message `done`. -/
def okPlugin : Plugin where
  name := "ok"
  validate := fun _ _ => Except.ok ()
  execute := fun _ _ =>
    Except.ok { success := true, data := [], message := "done", executionID := "" }

/-- A handler that reports failure with message `boom`. -/
def failPlugin : Plugin where
  name := "bad"
  validate := fun _ _ => Except.ok ()
  execute := fun _ _ =>
    Except.ok { success := false, data := [], message := "boom", executionID := "" }

/-- A manager with the succeeding and the failing handler registered. -/
def testManager : Manager where
  registry := [("ok", okPlugin), ("bad", failPlugin)]
  pluginDir := "./plugins"

/-- A plain execution context. -/
def ctxPlain : Ctx where
  executionID := some "exec-1"
  variablesMap := some []
  stageName := none

/-- A fresh stage accumulator. -/
def stageInit : StageResult := { name := "stage-1", success := false, jobs := [] }

/-- The spec's scenario jobs: `A` succeeds, `B` (after `A`) fails, `C`
(after `A`) succeeds. -/
def abcJobs : List Job :=
  [{ name := "A", type := "ok", dependsOn := [], timeout := "", retries := 0, config := [] },
   { name := "B", type := "bad", dependsOn := ["A"], timeout := "", retries := 0, config := [] },
   { name := "C", type := "ok", dependsOn := ["A"], timeout := "", retries := 0, config := [] }]

/-- C5 witness: on the three-job DAG in dry-run mode (where every task
succeeds) the executor returns `ok` and the graph ends fully
completed. -/
theorem ExecuteGraph_correct_witness :
    ∃ sr' g', ExecuteGraph testManager ctxPlain (buildDependencyGraph dagJobs) stageInit true
        = some (sr', g', Except.ok ()) ∧ IsCompleted g' = true := by
  obtain ⟨sr', g', e, heq, hok, _⟩ :=
    ExecuteGraph_correct testManager ctxPlain true (buildDependencyGraph dagJobs) stageInit
      (by decide) (by decide) (by decide)
      (hasCycles_false_no_cycle (by decide) (by decide))
  obtain ⟨he, hic⟩ := hok (by intro p _; rfl)
  rw [he] at heq
  exact ⟨sr', g', heq, hic⟩

/-- C1 counterexample: on the spec's scenario (`A` succeeds, then the
wave `[B, C]` runs with `B` failing and `C` succeeding), the recorded
JobResults are exactly `A` and `B`: `C`'s result — a job after the
failed job in the wave's dispatch order — is NOT appended, although
`C` was dispatched in that wave (third conjunct), refuting the claim
that results after a failure are still recorded. -/
theorem executeGraph_truncates_results_cex :
    (ExecuteGraph testManager ctxPlain (buildDependencyGraph abcJobs) stageInit false).map
        (fun res => (res.1.jobs.map (fun r => (r.name, r.success)), res.2.2))
      = some ([("A", true), ("B", false)], Except.error "job B failed: boom")
    ∧ "C" ∈ jobKeys (buildDependencyGraph abcJobs)
    ∧ ((GetReadyJobs (MarkCompleted (buildDependencyGraph abcJobs) "A")).map
        (fun j => j.name)) = ["B", "C"] :=
  ⟨rfl, by decide, rfl⟩

/-- C1 (amended): when a wave's results, in dispatch order, consist of
a successful prefix followed by a first failure, the executor appends
exactly the prefix and the first failed result to the accumulator (in
dispatch order), marks the prefix completed, returns an error naming
the first failed job and its message, and starts no further wave —
the results after the first failure are discarded, not recorded. -/
theorem executeGraphLoop_first_failure (pm : Manager) (ctx : Ctx) (dryRun : Bool)
    (fuel : Nat) (g : JobGraph) (acc pre rest : List JobResult) (fail : JobResult)
    (hready : (GetReadyJobs g).map (runJob pm ctx dryRun) = pre ++ fail :: rest)
    (hpre : ∀ r ∈ pre, r.success = true) (hfail : fail.success = false) :
    executeGraphLoop pm ctx dryRun (fuel + 1) g acc
      = some (acc ++ pre ++ [fail],
          markCompletedAll g (pre.map (fun r => r.name)),
          Except.error ("job " ++ fail.name ++ " failed: " ++ fail.message)) := by
  have hne : (GetReadyJobs g).isEmpty = false := by
    cases hq : GetReadyJobs g with
    | nil => rw [hq] at hready; simp at hready
    | cons a t => rfl
  simp only [executeGraphLoop, hne, Bool.false_eq_true, if_false, hready,
    processResults_split g pre acc fail rest hpre hfail]

/-- The graph of the scenario after `A`'s wave completed. -/
def g2w : JobGraph := MarkCompleted (buildDependencyGraph abcJobs) "A"

/-- The recorded result of `A`'s wave. -/
def resAw : JobResult :=
  { name := "A", type := "ok", success := true, message := "done", data := [] }

/-- The failing result of `B`. -/
def failBw : JobResult :=
  { name := "B", type := "bad", success := false, message := "boom", data := [] }

/-- The (discarded) successful result of `C`. -/
def okCw : JobResult :=
  { name := "C", type := "ok", success := true, message := "done", data := [] }

/-- C1 witness: in the scenario's second wave (`B` fails first, `C`
succeeds after it), the loop appends only `B`'s result after `A`'s and
aborts with the error naming `B`. -/
theorem executeGraphLoop_first_failure_witness :
    executeGraphLoop testManager ctxPlain false 3 g2w [resAw]
      = some ([resAw, failBw], g2w, Except.error "job B failed: boom") := by
  have h := executeGraphLoop_first_failure testManager ctxPlain false 2 g2w [resAw]
    [] [okCw] failBw rfl (by simp) rfl
  exact h.trans (by rfl)

/-! ### Orchestrator (`approval.go` companion of `part_003`) -/

/-- `engine.ExecuteOptions` (`approval.go:56-60`). -/
structure ExecuteOptions where
  autoRollback : Bool
  skipApproval : Bool
  dryRun : Bool
deriving Repr

/-- The execution context `ExecutePlan` builds (`approval.go:80-81`):
the run's execution ID and the plan's variable map. -/
def planCtx (plan : Plan) (executionID : String) : Ctx :=
  { executionID := some executionID, variablesMap := some plan.variablesMap,
    stageName := none }

/-- The fresh per-stage result both the forward path
(`approval.go:93-96`) and the rollback path (`approval.go:158`)
construct. -/
def freshStageResult (stage : Stage) : StageResult :=
  { name := stage.name, success := false, jobs := [] }

/-- `Orchestrator.executeStage` (`approval.go:134-144`): build a fresh
JobGraph for the stage, extend the context with the stage name, and
delegate to a fresh Executor. -/
def executeStage (pm : Manager) (ctx : Ctx) (stage : Stage) (sr : StageResult)
    (options : ExecuteOptions) : Option (StageResult × Except String Unit) :=
  let graph := buildDependencyGraph stage.jobs
  let stageCtx := { ctx with stageName := some stage.name }
  match ExecuteGraph pm stageCtx graph sr options.dryRun with
  | none => none
  | some (sr', _, e) => some (sr', e)

/-- The loop of `executeRollback` (`approval.go:152-163`): every
rollback stage gets a fresh Executor, a fresh JobGraph and a local
StageResult, and is executed with `dryRun` hard-coded to `false`; a
stage's failure is only logged and the loop continues unconditionally.
The embedding returns the per-stage (StageResult, error) observations
that the Go code logs and then discards. -/
def rollbackStagesRun (pm : Manager) (ctx : Ctx) :
    List Stage → Option (List (StageResult × Except String Unit))
  | [] => some []
  | stage :: rest =>
    let graph := buildDependencyGraph stage.jobs
    match ExecuteGraph pm ctx graph (freshStageResult stage) false with
    | none => none
    | some (sr, _, e) =>
      match rollbackStagesRun pm ctx rest with
      | none => none
      | some tl => some ((sr, e) :: tl)

/-- `Orchestrator.executeRollback` (`approval.go:147-167`); the Go
function always returns nil. -/
def executeRollback (pm : Manager) (ctx : Ctx) (rollback : Rollback) :
    Option (List (StageResult × Except String Unit)) :=
  rollbackStagesRun pm ctx rollback.stages

/-- The per-job accumulation step of `finalizeResult`
(`approval.go:176-184`). -/
def countJobFold (res : ExecutionResult) (job : JobResult) : ExecutionResult :=
  if job.success then { res with completedJobs := res.completedJobs + 1 }
  else { res with failedJobs := res.failedJobs + 1 }

/-- The per-stage accumulation step of `finalizeResult`. -/
def countStageFold (res : ExecutionResult) (stage : StageResult) : ExecutionResult :=
  stage.jobs.foldl countJobFold res

/-- `Orchestrator.finalizeResult` (`approval.go:170-191`): set the
final success flag, count completed and failed jobs across the
recorded stage results, and turn the message into the run's error when
the run failed. -/
def finalizeResult (result : ExecutionResult) (success : Bool) (message : String) :
    ExecutionResult × Except String Unit :=
  let counted := result.stages.foldl countStageFold { result with success := success }
  if !success then (counted, Except.error message) else (counted, Except.ok ())

/-- `Orchestrator.countTotalJobs` (`approval.go:194-200`). -/
def countTotalJobs (plan : Plan) : Nat :=
  plan.stages.foldl (fun acc stage => acc + stage.jobs.length) 0

/-- The stage loop of `ExecutePlan` (`approval.go:92-127`).  The
approval branch (`approval.go:99-105`) only prints two messages — no
gate is consulted and execution always proceeds — so it leaves no
trace in the embedding.  The third component of the returned triple is
the rollback observation trace (empty when no rollback ran). -/
def runStages (pm : Manager) (execCtx : Ctx) (plan : Plan) (options : ExecuteOptions) :
    List Stage → ExecutionResult →
    Option (ExecutionResult × Except String Unit × List (StageResult × Except String Unit))
  | [], result =>
    let fin := finalizeResult result true "Plan execution completed successfully"
    some (fin.1, fin.2, [])
  | stage :: rest, result =>
    match executeStage pm execCtx stage (freshStageResult stage) options with
    | none => none
    | some (sr, stageErr) =>
      let sr' := { sr with success := match stageErr with
        | Except.ok _ => true
        | Except.error _ => false }
      let result' := { result with stages := result.stages ++ [sr'] }
      match stageErr with
      | Except.error e =>
        let rbTrace := match options.autoRollback, plan.rollback with
          | true, some rb => executeRollback pm execCtx rb
          | _, _ => some []
        match rbTrace with
        | none => none
        | some tr =>
          let fin := finalizeResult result' false ("Stage " ++ stage.name ++ " failed: " ++ e)
          some (fin.1, fin.2, tr)
      | Except.ok _ => runStages pm execCtx plan options rest result'

/-- `Orchestrator.ExecutePlan` (`approval.go:75-131`).  The execution
ID (`uuid.New()` in Go) is a parameter; wall-clock fields are
elided. -/
def ExecutePlan (pm : Manager) (plan : Plan) (options : ExecuteOptions)
    (executionID : String) :
    Option (ExecutionResult × Except String Unit × List (StageResult × Except String Unit)) :=
  let result : ExecutionResult :=
    { id := executionID, success := false, totalStages := plan.stages.length,
      totalJobs := countTotalJobs plan, completedJobs := 0, failedJobs := 0, stages := [] }
  runStages pm (planCtx plan executionID) plan options plan.stages result

/-! ### Graphs built by `buildDependencyGraph` are well-formed maps -/

theorem assocSet_mem {α : Type} :
    ∀ (l : List (String × α)) (k : String) (v : α) (p : String × α),
      p ∈ assocSet l k v → p = (k, v) ∨ p ∈ l := by
  intro l
  induction l with
  | nil =>
    intro k v p hp
    simp only [assocSet] at hp
    rcases List.mem_cons.mp hp with h | h
    · exact Or.inl h
    · simp at h
  | cons q t ih =>
    intro k v p hp
    obtain ⟨k', v'⟩ := q
    simp only [assocSet] at hp
    split at hp
    · rcases List.mem_cons.mp hp with h | h
      · exact Or.inl h
      · exact Or.inr (List.mem_cons_of_mem _ h)
    · rcases List.mem_cons.mp hp with h | h
      · exact Or.inr (h ▸ List.mem_cons_self _ _)
      · rcases ih k v p h with h2 | h2
        · exact Or.inl h2
        · exact Or.inr (List.mem_cons_of_mem _ h2)

theorem assocSet_keys_of_mem {α : Type} :
    ∀ (l : List (String × α)) (k : String) (v : α), k ∈ l.map (fun p => p.1) →
      (assocSet l k v).map (fun p => p.1) = l.map (fun p => p.1) := by
  intro l
  induction l with
  | nil => intro k v h; simp at h
  | cons q t ih =>
    intro k v h
    obtain ⟨k', v'⟩ := q
    simp only [assocSet]
    split
    · rename_i hbeq
      have hk : k' = k := by simpa using hbeq
      simp [hk]
    · rename_i hbeq
      have hne : ¬ k' = k := by simpa using hbeq
      have hmem : k ∈ t.map (fun p => p.1) := by
        rcases List.mem_cons.mp h with h2 | h2
        · exact absurd h2.symm hne
        · exact h2
      simp only [List.map_cons, ih k v hmem]

theorem assocSet_keys_of_not_mem {α : Type} :
    ∀ (l : List (String × α)) (k : String) (v : α), k ∉ l.map (fun p => p.1) →
      (assocSet l k v).map (fun p => p.1) = l.map (fun p => p.1) ++ [k] := by
  intro l
  induction l with
  | nil => intro k v _; rfl
  | cons q t ih =>
    intro k v h
    obtain ⟨k', v'⟩ := q
    have hne : ¬ k' = k := by
      intro hh
      exact h (by simp [hh])
    have hbeq : (k' == k) = false := by simpa using hne
    have hmem : k ∉ t.map (fun p => p.1) := by
      intro hh
      exact h (List.mem_cons_of_mem _ hh)
    simp only [assocSet, hbeq, Bool.false_eq_true, if_false, List.map_cons,
      ih k v hmem, List.cons_append]

/-- Well-formedness of the Go-map embedding of `g.jobs`: keys are
unique and each entry is keyed by its job's name. -/
def JobsWF (l : List (String × Job)) : Prop :=
  (∀ p ∈ l, p.2.name = p.1) ∧ (l.map (fun p => p.1)).Nodup

theorem addJob_wf {g : JobGraph} (job : Job) (h : JobsWF g.jobs) :
    JobsWF (AddJob g job).jobs := by
  have hjobs : (AddJob g job).jobs = assocSet g.jobs job.name job := rfl
  constructor
  · intro p hp
    rw [hjobs] at hp
    rcases assocSet_mem g.jobs job.name job p hp with h2 | h2
    · rw [h2]
    · exact h.1 p h2
  · rw [hjobs]
    by_cases hmem : job.name ∈ g.jobs.map (fun p => p.1)
    · rw [assocSet_keys_of_mem _ _ _ hmem]
      exact h.2
    · rw [assocSet_keys_of_not_mem _ _ _ hmem]
      rw [List.nodup_append]
      refine ⟨h.2, List.nodup_singleton _, ?_⟩
      intro x hx hx2
      rcases List.mem_cons.mp hx2 with hh | hh
      · exact hmem (hh ▸ hx)
      · simp at hh

theorem addJobFold_wf :
    ∀ (js : List Job) (g : JobGraph), JobsWF g.jobs → JobsWF ((js.foldl AddJob g).jobs) := by
  intro js
  induction js with
  | nil => intro g h; exact h
  | cons j t ih => intro g h; exact ih (AddJob g j) (addJob_wf j h)

theorem depFoldInner_jobs :
    ∀ (deps : List String) (g : JobGraph) (a : String),
      ((deps.foldl (fun g d => AddDependency g a d) g).jobs) = g.jobs := by
  intro deps
  induction deps with
  | nil => intro g a; rfl
  | cons d t ih => intro g a; exact ih (AddDependency g a d) a

theorem depFold_jobs :
    ∀ (js : List Job) (g : JobGraph),
      ((js.foldl (fun g job =>
        job.dependsOn.foldl (fun g d => AddDependency g job.name d) g) g).jobs) = g.jobs := by
  intro js
  induction js with
  | nil => intro g; rfl
  | cons j t ih =>
    intro g
    rw [List.foldl_cons, ih, depFoldInner_jobs]

theorem buildDependencyGraph_wf (jobs : List Job) :
    JobsWF (buildDependencyGraph jobs).jobs := by
  unfold buildDependencyGraph
  have h : JobsWF ((jobs.foldl AddJob NewJobGraph).jobs) :=
    addJobFold_wf jobs NewJobGraph ⟨by intro p hp; simp [NewJobGraph] at hp, by simp [NewJobGraph]⟩
  rw [depFold_jobs]
  exact h

/-! ### Termination of the executor on well-formed graphs -/

theorem executeGraphLoop_terminates (pm : Manager) (ctx : Ctx) (dryRun : Bool) :
    ∀ (fuel : Nat) (g : JobGraph) (acc : List JobResult),
      countUncompleted g < fuel → (∀ p ∈ g.jobs, p.2.name = p.1) →
      ∃ r, executeGraphLoop pm ctx dryRun fuel g acc = some r := by
  intro fuel
  induction fuel with
  | zero => intro g acc h _; exact absurd h (Nat.not_lt_zero _)
  | succ f ih =>
    intro g acc hcount hkey
    by_cases hre : (GetReadyJobs g).isEmpty = true
    · exact ⟨(acc, g, Except.ok ()), by simp [executeGraphLoop, hre]⟩
    · have hreF : (GetReadyJobs g).isEmpty = false := by
        cases hq : (GetReadyJobs g).isEmpty
        · rfl
        · exact absurd hq hre
      have hrne : GetReadyJobs g ≠ [] := by
        intro hh
        rw [hh] at hre
        exact hre rfl
      rcases hproc : processResults g acc ((GetReadyJobs g).map (runJob pm ctx dryRun))
        with ⟨acc0, g0, me⟩
      cases me with
      | some e0 =>
        exact ⟨(acc0, g0, Except.error e0),
          by simp only [executeGraphLoop, hreF, Bool.false_eq_true, if_false, hproc]⟩
      | none =>
        obtain ⟨_, _, hg0⟩ := processResults_none_spec _ g acc acc0 g0 hproc
        have hjobs0 : g0.jobs = g.jobs := by rw [hg0]; exact markCompletedAll_jobs _ _
        have hcount0 : countUncompleted g0 < f := by
          have hlt : countUncompleted g0 < countUncompleted g := by
            rw [hg0]
            apply wave_count_lt
            obtain ⟨j, hj⟩ := List.exists_mem_of_ne_nil _ hrne
            have hjr : runJob pm ctx dryRun j ∈ (GetReadyJobs g).map (runJob pm ctx dryRun) :=
              List.mem_map.mpr ⟨j, hj, rfl⟩
            obtain ⟨p, hp, hpn, hpc, _⟩ := result_mem_spec hkey hjr
            refine ⟨p.1, ?_, List.mem_map.mpr ⟨p, hp, rfl⟩, hpc⟩
            rw [hpn]
            exact List.mem_map.mpr ⟨runJob pm ctx dryRun j, hjr, rfl⟩
          omega
        have hkey0 : ∀ p ∈ g0.jobs, p.2.name = p.1 := by
          rw [hjobs0]
          exact hkey
        obtain ⟨r, hr⟩ := ih g0 acc0 hcount0 hkey0
        refine ⟨r, ?_⟩
        simp only [executeGraphLoop, hreF, Bool.false_eq_true, if_false, hproc]
        exact hr

theorem ExecuteGraph_terminates (pm : Manager) (ctx : Ctx) (g : JobGraph)
    (sr : StageResult) (dryRun : Bool) (hkey : ∀ p ∈ g.jobs, p.2.name = p.1) :
    ∃ r, ExecuteGraph pm ctx g sr dryRun = some r := by
  by_cases hc : HasCycles g = true
  · exact ⟨(sr, g, Except.error "dependency cycle detected in job graph"),
      by simp [ExecuteGraph, hc]⟩
  · have hcF : HasCycles g = false := by
      cases hq : HasCycles g
      · rfl
      · exact absurd hq hc
    have hcount : countUncompleted g < g.jobs.length + 1 := by
      have h1 : countUncompleted g ≤ (jobKeys g).length := List.length_filter_le _ _
      have h2 : (jobKeys g).length = g.jobs.length := by simp [jobKeys]
      omega
    obtain ⟨⟨acc', g', e⟩, hr⟩ :=
      executeGraphLoop_terminates pm ctx dryRun (g.jobs.length + 1) g sr.jobs hcount hkey
    exact ⟨({ sr with jobs := acc' }, g', e),
      by simp only [ExecuteGraph, hcF, Bool.false_eq_true, if_false, hr]⟩

theorem executeStage_terminates (pm : Manager) (ctx : Ctx) (stage : Stage)
    (sr : StageResult) (options : ExecuteOptions) :
    ∃ r, executeStage pm ctx stage sr options = some r := by
  obtain ⟨⟨sr', g', e⟩, hr⟩ := ExecuteGraph_terminates pm { ctx with stageName := some stage.name }
    (buildDependencyGraph stage.jobs) sr options.dryRun (buildDependencyGraph_wf stage.jobs).1
  exact ⟨(sr', e), by simp only [executeStage, hr]⟩

/-- Every rollback stage is executed, in order, with a fresh JobGraph
and executor and with `dryRun` hard-coded `false`; the trace records
exactly one (StageResult, error) observation per rollback stage,
regardless of the other stages' failures. -/
theorem rollbackStagesRun_spec (pm : Manager) (ctx : Ctx) :
    ∀ stages : List Stage, ∃ trace, rollbackStagesRun pm ctx stages = some trace ∧
      trace.length = stages.length ∧
      ∀ i (hi : i < stages.length), ∃ sr g' e,
        ExecuteGraph pm ctx (buildDependencyGraph (stages.get ⟨i, hi⟩).jobs)
          (freshStageResult (stages.get ⟨i, hi⟩)) false = some (sr, g', e) ∧
        ∃ hi' : i < trace.length, trace.get ⟨i, hi'⟩ = (sr, e) := by
  intro stages
  induction stages with
  | nil => exact ⟨[], rfl, rfl, fun i hi => absurd hi (by simp)⟩
  | cons s rest ih =>
    obtain ⟨⟨sr, g', e⟩, hr⟩ := ExecuteGraph_terminates pm ctx (buildDependencyGraph s.jobs)
      (freshStageResult s) false (buildDependencyGraph_wf s.jobs).1
    obtain ⟨tl, htl, hlen, hspec⟩ := ih
    refine ⟨(sr, e) :: tl, ?_, by simp [hlen], ?_⟩
    · simp only [rollbackStagesRun, hr, htl]
    · intro i hi
      cases i with
      | zero => exact ⟨sr, g', e, hr, by simp, rfl⟩
      | succ i' =>
        obtain ⟨sr2, g2, e2, hr2, hi2, hget⟩ := hspec i' (by simpa using hi)
        refine ⟨sr2, g2, e2, hr2, by simpa using hi2, ?_⟩
        simpa using hget

/-! ### `finalizeResult` bookkeeping -/

/-- Successful job results across recorded stage results. -/
def succCount (stages : List StageResult) : Nat :=
  (stages.map (fun st => (st.jobs.filter (fun j => j.success)).length)).sum

/-- Failed job results across recorded stage results. -/
def failCount (stages : List StageResult) : Nat :=
  (stages.map (fun st => (st.jobs.filter (fun j => !j.success)).length)).sum

theorem foldl_countJob_fields :
    ∀ (jobs : List JobResult) (res : ExecutionResult),
      (jobs.foldl countJobFold res).stages = res.stages ∧
      (jobs.foldl countJobFold res).success = res.success ∧
      (jobs.foldl countJobFold res).completedJobs
        = res.completedJobs + (jobs.filter (fun j => j.success)).length ∧
      (jobs.foldl countJobFold res).failedJobs
        = res.failedJobs + (jobs.filter (fun j => !j.success)).length := by
  intro jobs
  induction jobs with
  | nil => intro res; exact ⟨rfl, rfl, rfl, rfl⟩
  | cons j t ih =>
    intro res
    obtain ⟨h1, h2, h3, h4⟩ := ih (countJobFold res j)
    rw [List.foldl_cons]
    refine ⟨?_, ?_, ?_, ?_⟩
    · rw [h1]; unfold countJobFold; split <;> rfl
    · rw [h2]; unfold countJobFold; split <;> rfl
    · rw [h3]
      cases hs : j.success <;> (simp [countJobFold, hs]; try omega)
    · rw [h4]
      cases hs : j.success <;> (simp [countJobFold, hs]; try omega)

theorem foldl_countStage_fields :
    ∀ (stages : List StageResult) (res : ExecutionResult),
      (stages.foldl countStageFold res).stages = res.stages ∧
      (stages.foldl countStageFold res).success = res.success ∧
      (stages.foldl countStageFold res).completedJobs = res.completedJobs + succCount stages ∧
      (stages.foldl countStageFold res).failedJobs = res.failedJobs + failCount stages := by
  intro stages
  induction stages with
  | nil => intro res; exact ⟨rfl, rfl, rfl, rfl⟩
  | cons st t ih =>
    intro res
    obtain ⟨h1, h2, h3, h4⟩ := ih (countStageFold res st)
    obtain ⟨g1, g2, g3, g4⟩ := foldl_countJob_fields st.jobs res
    rw [List.foldl_cons]
    refine ⟨?_, ?_, ?_, ?_⟩
    · rw [h1]; exact g1
    · rw [h2]; exact g2
    · rw [h3]
      unfold countStageFold
      rw [g3]
      simp [succCount]
      omega
    · rw [h4]
      unfold countStageFold
      rw [g4]
      simp [failCount]
      omega

theorem finalizeResult_fst_stages (r : ExecutionResult) (s : Bool) (m : String) :
    (finalizeResult r s m).1.stages = r.stages := by
  unfold finalizeResult
  split
  · exact (foldl_countStage_fields r.stages _).1
  · exact (foldl_countStage_fields r.stages _).1

theorem finalizeResult_fst_success (r : ExecutionResult) (s : Bool) (m : String) :
    (finalizeResult r s m).1.success = s := by
  unfold finalizeResult
  split
  · exact (foldl_countStage_fields r.stages _).2.1
  · exact (foldl_countStage_fields r.stages _).2.1

theorem finalizeResult_fst_completed (r : ExecutionResult) (s : Bool) (m : String) :
    (finalizeResult r s m).1.completedJobs = r.completedJobs + succCount r.stages := by
  unfold finalizeResult
  split
  · exact (foldl_countStage_fields r.stages _).2.2.1
  · exact (foldl_countStage_fields r.stages _).2.2.1

theorem finalizeResult_fst_failed (r : ExecutionResult) (s : Bool) (m : String) :
    (finalizeResult r s m).1.failedJobs = r.failedJobs + failCount r.stages := by
  unfold finalizeResult
  split
  · exact (foldl_countStage_fields r.stages _).2.2.2
  · exact (foldl_countStage_fields r.stages _).2.2.2

theorem finalizeResult_snd_false (r : ExecutionResult) (m : String) :
    (finalizeResult r false m).2 = Except.error m := rfl

theorem finalizeResult_snd_true (r : ExecutionResult) (m : String) :
    (finalizeResult r true m).2 = Except.ok () := rfl

/-! ### Claim C7: best-effort rollback -/

/-- The stage loop on `pre ++ failStage :: post` with every stage of
`pre` succeeding and `failStage` failing: the run stops at `failStage`
with the error naming it, the rollback trace comes from
`executeRollback`, and the recorded stages are the `pre` results
followed by the failed stage's result. -/
theorem runStages_failure_spec (pm : Manager) (plan : Plan) (options : ExecuteOptions)
    (execId : String) (rb : Rollback) (post : List Stage) (failStage : Stage)
    (srF : StageResult) (eF : String)
    (hauto : options.autoRollback = true) (hrb : plan.rollback = some rb)
    (hfail : executeStage pm (planCtx plan execId) failStage (freshStageResult failStage)
      options = some (srF, Except.error eF)) :
    ∀ (pre : List Stage) (result : ExecutionResult),
      (∀ s ∈ pre, ∃ sr, executeStage pm (planCtx plan execId) s (freshStageResult s) options
        = some (sr, Except.ok ())) →
      ∃ res trace preResults,
        runStages pm (planCtx plan execId) plan options (pre ++ failStage :: post) result
          = some (res, Except.error ("Stage " ++ failStage.name ++ " failed: " ++ eF), trace) ∧
        executeRollback pm (planCtx plan execId) rb = some trace ∧
        res.success = false ∧
        res.stages = result.stages ++ preResults ++ [{ srF with success := false }] ∧
        preResults.length = pre.length := by
  intro pre
  induction pre with
  | nil =>
    intro result _
    obtain ⟨trace, htrace, _, _⟩ := rollbackStagesRun_spec pm (planCtx plan execId) rb.stages
    have htrace' : executeRollback pm (planCtx plan execId) rb = some trace := htrace
    set msg := "Stage " ++ failStage.name ++ " failed: " ++ eF with hmsg
    set result' : ExecutionResult :=
      { result with stages := result.stages ++ [{ srF with success := false }] } with hres'
    refine ⟨(finalizeResult result' false msg).1, trace, [], ?_, htrace', ?_, ?_, rfl⟩
    · simp only [List.nil_append, runStages, hfail, hauto, hrb, htrace',
        finalizeResult_snd_false]
    · exact finalizeResult_fst_success result' false msg
    · rw [finalizeResult_fst_stages]
      simp [hres']
  | cons s pre' ih =>
    intro result hpre
    obtain ⟨srS, hsrS⟩ := hpre s (List.mem_cons_self _ _)
    obtain ⟨res, trace, preResults, hrun, htrace, hsucc, hstages, hlen⟩ :=
      ih { result with stages := result.stages ++ [{ srS with success := true }] }
        (fun x hx => hpre x (List.mem_cons_of_mem _ hx))
    refine ⟨res, trace, { srS with success := true } :: preResults, ?_, htrace, hsucc, ?_,
      by simp [hlen]⟩
    · simp only [List.cons_append, runStages, hsrS]
      exact hrun
    · rw [hstages]
      simp

/-- C7: when a forward stage fails with AutoRollback enabled and the
plan defines a Rollback section, the orchestrator executes every
rollback stage in order with a fresh Executor and JobGraph per stage
(the trace has one entry per rollback stage, each the full execution
of that stage's fresh graph, so one stage's failure never stops the
next), and ExecutePlan still returns a FAILED result whose error names
the originally failed forward stage, alongside the partial
ExecutionResult holding the forward stages up to the failure. -/
theorem ExecutePlan_rollback_best_effort (pm : Manager) (plan : Plan)
    (options : ExecuteOptions) (execId : String) (rb : Rollback)
    (pre post : List Stage) (failStage : Stage) (srF : StageResult) (eF : String)
    (hauto : options.autoRollback = true) (hrb : plan.rollback = some rb)
    (hstages : plan.stages = pre ++ failStage :: post)
    (hpre : ∀ s ∈ pre, ∃ sr, executeStage pm (planCtx plan execId) s (freshStageResult s)
      options = some (sr, Except.ok ()))
    (hfail : executeStage pm (planCtx plan execId) failStage (freshStageResult failStage)
      options = some (srF, Except.error eF)) :
    ∃ res trace preResults,
      ExecutePlan pm plan options execId
        = some (res, Except.error ("Stage " ++ failStage.name ++ " failed: " ++ eF), trace) ∧
      executeRollback pm (planCtx plan execId) rb = some trace ∧
      trace.length = rb.stages.length ∧
      (∀ i (hi : i < rb.stages.length), ∃ sr g' e,
        ExecuteGraph pm (planCtx plan execId)
          (buildDependencyGraph ((rb.stages).get ⟨i, hi⟩).jobs)
          (freshStageResult ((rb.stages).get ⟨i, hi⟩)) false = some (sr, g', e) ∧
        ∃ hi' : i < trace.length, trace.get ⟨i, hi'⟩ = (sr, e)) ∧
      res.success = false ∧
      res.stages = preResults ++ [{ srF with success := false }] ∧
      preResults.length = pre.length := by
  obtain ⟨res, trace, preResults, hrun, htrace, hsucc, hstg, hlen⟩ :=
    runStages_failure_spec pm plan options execId rb post failStage srF eF hauto hrb hfail
      pre { id := execId, success := false, totalStages := plan.stages.length,
            totalJobs := countTotalJobs plan, completedJobs := 0, failedJobs := 0,
            stages := [] } hpre
  obtain ⟨trace2, htrace2, hlen2, hspec2⟩ := rollbackStagesRun_spec pm (planCtx plan execId)
    rb.stages
  have htr : trace2 = trace := Option.some.inj (htrace2.symm.trans htrace)
  subst htr
  refine ⟨res, trace2, preResults, ?_, htrace, hlen2, hspec2, hsucc, by simpa using hstg, hlen⟩
  unfold ExecutePlan
  rw [hstages] at hrun
  rw [hstages]
  exact hrun

/-- A one-job stage with the given name and job type. -/
def mkStage (n : String) (ty : String) : Stage :=
  { name := n, requireApproval := false, approvers := [],
    jobs := [{ name := n ++ "-job", type := ty, dependsOn := [], timeout := "",
               retries := 0, config := [] }] }

/-- The spec's AutoRollback scenario rollback section: rollback stage
`r1` fails, rollback stage `r2` succeeds. -/
def rbStagesW : Rollback := { stages := [mkStage "r1" "bad", mkStage "r2" "ok"] }

/-- The spec's AutoRollback scenario: a three-stage plan failing at
stage `s2`, with the two-stage rollback section `rbStagesW`. -/
def rollbackPlanW : Plan :=
  { variablesMap := [],
    stages := [mkStage "s1" "ok", mkStage "s2" "bad", mkStage "s3" "ok"],
    rollback := some rbStagesW }

/-- The failing result of stage `s2`. -/
def srS2W : StageResult :=
  { name := "s2", success := false,
    jobs := [{ name := "s2-job", type := "bad", success := false, message := "boom",
               data := [] }] }

/-- The successful result of stage `s1`. -/
def srS1W : StageResult :=
  { name := "s1", success := false,
    jobs := [{ name := "s1-job", type := "ok", success := true, message := "done",
               data := [] }] }

/-- C7 witness: the scenario run fails with stage `s2`'s error as
cause, both rollback stages are in the trace (the first one failing
does not block the second), and the recorded stages are `s1` and
`s2`. -/
theorem ExecutePlan_rollback_best_effort_witness :
    ∃ res trace preResults,
      ExecutePlan testManager rollbackPlanW
          { autoRollback := true, skipApproval := false, dryRun := false } "exec-1"
        = some (res, Except.error "Stage s2 failed: job s2-job failed: boom", trace) ∧
      executeRollback testManager (planCtx rollbackPlanW "exec-1") rbStagesW = some trace ∧
      trace.length = 2 ∧
      res.success = false ∧
      res.stages = preResults ++ [{ srS2W with success := false }] ∧
      preResults.length = 1 := by
  obtain ⟨res, trace, preResults, h1, h2, h3, _, h5, h6, h7⟩ :=
    ExecutePlan_rollback_best_effort testManager rollbackPlanW
      { autoRollback := true, skipApproval := false, dryRun := false } "exec-1" rbStagesW
      [mkStage "s1" "ok"] [mkStage "s3" "ok"] (mkStage "s2" "bad") srS2W
      "job s2-job failed: boom" rfl rfl rfl
      (by
        intro s hs
        have hseq : s = mkStage "s1" "ok" := List.mem_singleton.mp hs
        subst hseq
        exact ⟨srS1W, rfl⟩)
      rfl
  exact ⟨res, trace, preResults, h1, h2, h3, h5, h6, h7⟩

/-! ### Claim C8: the approval gate is a stub -/

/-- Flipping every stage's `requireApproval` flag never changes what
`executeStage` does: the stage's approval fields are not read on the
execution path. -/
theorem executeStage_approval_irrelevant (pm : Manager) (ctx : Ctx) (s : Stage)
    (sr : StageResult) (options : ExecuteOptions) (b : Bool) :
    executeStage pm ctx { s with requireApproval := b } sr options
      = executeStage pm ctx s sr options := rfl

/-- The fresh per-stage result does not depend on the approval flag. -/
theorem freshStageResult_approval (s : Stage) (b : Bool) :
    freshStageResult { s with requireApproval := b } = freshStageResult s := rfl

/-- The stage loop is invariant under rewriting every stage's
`requireApproval` flag: the orchestrator never consults any approval
gate. -/
theorem runStages_approval_invariant (pm : Manager) (ctx : Ctx)
    (options : ExecuteOptions) (b : Bool) (plan plan' : Plan)
    (hrb : plan'.rollback = plan.rollback) :
    ∀ (stages : List Stage) (result : ExecutionResult),
      runStages pm ctx plan' options
          (stages.map (fun s => { s with requireApproval := b })) result
        = runStages pm ctx plan options stages result := by
  intro stages
  induction stages with
  | nil => intro result; rfl
  | cons s rest ih =>
    intro result
    simp only [List.map_cons, runStages, executeStage_approval_irrelevant,
      freshStageResult_approval]
    cases hes : executeStage pm ctx s (freshStageResult s) options with
    | none => rfl
    | some pr =>
      obtain ⟨sr, stageErr⟩ := pr
      cases stageErr with
      | ok u => exact ih _
      | error e =>
        rw [hrb]

/-- A stage guarded by `requireApproval` with a nonempty approver
list, holding one job of the succeeding type. -/
def approvalStage : Stage :=
  { name := "gated", requireApproval := true, approvers := ["ops"],
    jobs := [{ name := "J", type := "ok", dependsOn := [], timeout := "",
               retries := 0, config := [] }] }

/-- A plan whose only stage requires approval; no rollback section. -/
def approvalPlan : Plan :=
  { variablesMap := [], stages := [approvalStage], rollback := none }

/-- What running the gated plan actually produces: the stage's job
executed and succeeded. -/
def resGatedW : ExecutionResult :=
  { id := "exec-1", success := true, totalStages := 1, totalJobs := 1,
    completedJobs := 1, failedJobs := 0,
    stages := [{ name := "gated", success := true,
                 jobs := [{ name := "J", type := "ok", success := true,
                            message := "done", data := [] }] }] }

/-- C8: counterexample — stage `gated` has `RequireApproval` set and
the run does not skip approvals, yet `ExecutePlan` builds the stage's
JobGraph, runs its job and completes the run successfully: the
approval branch (`approval.go:99-105`) only prints two messages, never
consults any ApprovalGate collaborator, and has no code path that
fails the run.  (`executeStage_approval_irrelevant` and
`runStages_approval_invariant` show the flag is dead on every input,
not just this one.) -/
theorem executePlan_ignores_approval_cex :
    approvalStage.requireApproval = true ∧
    ExecutePlan testManager approvalPlan
        { autoRollback := false, skipApproval := false, dryRun := false } "exec-1"
      = some (resGatedW, Except.ok (), []) ∧
    resGatedW.success = true ∧ resGatedW.completedJobs = 1 :=
  ⟨rfl, rfl, rfl, rfl⟩

/-! ### Claim C9: rollback ignores the DryRun option -/

/-- When the stage loop returns an error outcome (some forward stage
failed) under AutoRollback with a rollback section present, the
returned trace is exactly the output of `executeRollback`. -/
theorem runStages_error_trace (pm : Manager) (ctx : Ctx) (plan : Plan)
    (options : ExecuteOptions) (rb : Rollback)
    (hauto : options.autoRollback = true) (hrb : plan.rollback = some rb) :
    ∀ (stages : List Stage) (result res : ExecutionResult) (emsg : String)
      (trace : List (StageResult × Except String Unit)),
      runStages pm ctx plan options stages result = some (res, Except.error emsg, trace) →
      executeRollback pm ctx rb = some trace := by
  intro stages
  induction stages with
  | nil =>
    intro result res emsg trace h
    simp only [runStages, finalizeResult_snd_true, Option.some.injEq, Prod.mk.injEq] at h
    exact Except.noConfusion h.2.1
  | cons s rest ih =>
    intro result res emsg trace h
    cases hes : executeStage pm ctx s (freshStageResult s) options with
    | none =>
      simp only [runStages, hes] at h
      exact Option.noConfusion h
    | some pr =>
      obtain ⟨sr, stageErr⟩ := pr
      cases stageErr with
      | ok u =>
        simp only [runStages, hes] at h
        exact ih _ res emsg trace h
      | error e =>
        obtain ⟨tr, htr0, -, -⟩ := rollbackStagesRun_spec pm ctx rb.stages
        have htr : executeRollback pm ctx rb = some tr := htr0
        simp only [runStages, hes, hauto, hrb, htr, Option.some.injEq, Prod.mk.injEq] at h
        exact htr.trans (congrArg some h.2.2)

/-- C9: in every run where a forward stage fails and AutoRollback
triggers the rollback section — regardless of `options.dryRun`, so in
particular in a DryRun run — each rollback stage is executed with
`dryRun` hard-coded to `false` (`approval.go:159`): every entry of the
returned rollback trace is the result of `ExecuteGraph … false` on
that stage's fresh graph, so handlers really run in real mode. -/
theorem ExecutePlan_rollback_ignores_dryRun (pm : Manager) (plan : Plan)
    (options : ExecuteOptions) (execId : String) (rb : Rollback)
    (res : ExecutionResult) (emsg : String)
    (trace : List (StageResult × Except String Unit))
    (hauto : options.autoRollback = true) (hrb : plan.rollback = some rb)
    (hrun : ExecutePlan pm plan options execId = some (res, Except.error emsg, trace)) :
    executeRollback pm (planCtx plan execId) rb = some trace ∧
    trace.length = rb.stages.length ∧
    ∀ i (hi : i < rb.stages.length), ∃ sr g' e,
      ExecuteGraph pm (planCtx plan execId)
        (buildDependencyGraph ((rb.stages).get ⟨i, hi⟩).jobs)
        (freshStageResult ((rb.stages).get ⟨i, hi⟩)) false = some (sr, g', e) ∧
      ∃ hi' : i < trace.length, trace.get ⟨i, hi'⟩ = (sr, e) := by
  have hrun' : runStages pm (planCtx plan execId) plan options plan.stages
      { id := execId, success := false, totalStages := plan.stages.length,
        totalJobs := countTotalJobs plan, completedJobs := 0, failedJobs := 0,
        stages := [] } = some (res, Except.error emsg, trace) := hrun
  have htrace := runStages_error_trace pm (planCtx plan execId) plan options rb hauto hrb
    plan.stages _ res emsg trace hrun'
  obtain ⟨trace2, htrace2, hlen2, hspec2⟩ :=
    rollbackStagesRun_spec pm (planCtx plan execId) rb.stages
  have htrace2' : executeRollback pm (planCtx plan execId) rb = some trace2 := htrace2
  have htr : trace2 = trace := Option.some.inj (htrace2'.symm.trans htrace)
  subst htr
  exact ⟨htrace, hlen2, hspec2⟩

/-- The cyclic stage: its graph is rejected by the executor before any
dispatch, failing the forward run even in dry-run mode. -/
def cycStage : Stage :=
  { name := "cyc", requireApproval := false, approvers := [], jobs := cycleJobs }

/-- A one-stage rollback section with a succeeding job. -/
def rbW9 : Rollback := { stages := [mkStage "r1" "ok"] }

/-- A plan whose forward stage fails (cyclic graph) with a rollback
section attached; run with DryRun enabled. -/
def dryFailPlan : Plan :=
  { variablesMap := [], stages := [cycStage], rollback := some rbW9 }

/-- The run result of `dryFailPlan` under DryRun. -/
def dryResW : ExecutionResult :=
  { id := "exec-1", success := false, totalStages := 1, totalJobs := 2,
    completedJobs := 0, failedJobs := 0,
    stages := [{ name := "cyc", success := false, jobs := [] }] }

/-- The rollback trace of `dryFailPlan` under DryRun: the rollback job
really executed (its message is the handler's `done`, not the
executor's `Dry run simulation`). -/
def dryTraceW : List (StageResult × Except String Unit) :=
  [({ name := "r1", success := false,
      jobs := [{ name := "r1-job", type := "ok", success := true, message := "done",
                 data := [] }] }, Except.ok ())]

/-- C9 witness: running `dryFailPlan` with DryRun=true fails forward
and rolls back; the theorem identifies the trace with
`executeRollback`'s output, and that trace shows the rollback job ran
in real mode (message `done`, not `Dry run simulation`). -/
theorem ExecutePlan_rollback_ignores_dryRun_witness :
    executeRollback testManager (planCtx dryFailPlan "exec-1") rbW9 = some dryTraceW ∧
    dryTraceW.length = rbW9.stages.length ∧
    (∀ p ∈ dryTraceW, ∀ j ∈ p.1.jobs, j.message = "done") := by
  have h := ExecutePlan_rollback_ignores_dryRun testManager dryFailPlan
    { autoRollback := true, skipApproval := false, dryRun := true } "exec-1" rbW9
    dryResW "Stage cyc failed: dependency cycle detected in job graph" dryTraceW
    rfl rfl rfl
  exact ⟨h.1, h.2.1, by decide⟩

/-! ### Claim C10: rollback never modifies the ExecutionResult -/

/-- The (ExecutionResult, error) part of the stage loop's outcome does
not depend on the plan's rollback section at all: only the trace
component does. -/
theorem runStages_result_ignores_rollback (pm : Manager) (ctx : Ctx)
    (options : ExecuteOptions) (plan plan' : Plan) :
    ∀ (stages : List Stage) (result : ExecutionResult),
      (runStages pm ctx plan options stages result).map (fun t => (t.1, t.2.1))
        = (runStages pm ctx plan' options stages result).map (fun t => (t.1, t.2.1)) := by
  intro stages
  induction stages with
  | nil => intro result; rfl
  | cons s rest ih =>
    intro result
    simp only [runStages]
    cases hes : executeStage pm ctx s (freshStageResult s) options with
    | none => rfl
    | some pr =>
      obtain ⟨sr, stageErr⟩ := pr
      cases stageErr with
      | ok u => exact ih _
      | error e =>
        cases options.autoRollback with
        | false => cases plan.rollback <;> cases plan'.rollback <;> rfl
        | true =>
          cases plan.rollback with
          | none =>
            cases plan'.rollback with
            | none => rfl
            | some rb2 =>
              obtain ⟨tr2, htr2, -, -⟩ := rollbackStagesRun_spec pm ctx rb2.stages
              have h2 : executeRollback pm ctx rb2 = some tr2 := htr2
              simp only [h2]
              rfl
          | some rb1 =>
            obtain ⟨tr1, htr1, -, -⟩ := rollbackStagesRun_spec pm ctx rb1.stages
            have h1 : executeRollback pm ctx rb1 = some tr1 := htr1
            cases plan'.rollback with
            | none =>
              simp only [h1]
              rfl
            | some rb2 =>
              obtain ⟨tr2, htr2, -, -⟩ := rollbackStagesRun_spec pm ctx rb2.stages
              have h2 : executeRollback pm ctx rb2 = some tr2 := htr2
              simp only [h1, h2]
              rfl

/-- The final result's job counts are computed from its recorded
stages: the bookkeeping of `finalizeResult` over whatever the result
ends with. -/
theorem runStages_counts (pm : Manager) (ctx : Ctx) (plan : Plan)
    (options : ExecuteOptions) :
    ∀ (stages : List Stage) (result res : ExecutionResult) (err : Except String Unit)
      (trace : List (StageResult × Except String Unit)),
      runStages pm ctx plan options stages result = some (res, err, trace) →
      res.completedJobs = result.completedJobs + succCount res.stages ∧
      res.failedJobs = result.failedJobs + failCount res.stages := by
  intro stages
  induction stages with
  | nil =>
    intro result res err trace h
    simp only [runStages, Option.some.injEq, Prod.mk.injEq] at h
    obtain ⟨h1, -, -⟩ := h
    subst h1
    rw [finalizeResult_fst_completed, finalizeResult_fst_failed, finalizeResult_fst_stages]
    exact ⟨rfl, rfl⟩
  | cons s rest ih =>
    intro result res err trace h
    cases hes : executeStage pm ctx s (freshStageResult s) options with
    | none =>
      simp only [runStages, hes] at h
      exact Option.noConfusion h
    | some pr =>
      obtain ⟨sr, stageErr⟩ := pr
      cases stageErr with
      | ok u =>
        simp only [runStages, hes] at h
        exact ih { result with
          stages := result.stages ++ [{ name := sr.name, success := true, jobs := sr.jobs }] }
          res err trace h
      | error e =>
        cases hauto : options.autoRollback with
        | false =>
          cases hrbo : plan.rollback with
          | none =>
            simp only [runStages, hes, hauto, hrbo, Option.some.injEq, Prod.mk.injEq] at h
            obtain ⟨h1, -, -⟩ := h
            subst h1
            rw [finalizeResult_fst_completed, finalizeResult_fst_failed,
              finalizeResult_fst_stages]
            exact ⟨rfl, rfl⟩
          | some rb =>
            simp only [runStages, hes, hauto, hrbo, Option.some.injEq, Prod.mk.injEq] at h
            obtain ⟨h1, -, -⟩ := h
            subst h1
            rw [finalizeResult_fst_completed, finalizeResult_fst_failed,
              finalizeResult_fst_stages]
            exact ⟨rfl, rfl⟩
        | true =>
          cases hrbo : plan.rollback with
          | none =>
            simp only [runStages, hes, hauto, hrbo, Option.some.injEq, Prod.mk.injEq] at h
            obtain ⟨h1, -, -⟩ := h
            subst h1
            rw [finalizeResult_fst_completed, finalizeResult_fst_failed,
              finalizeResult_fst_stages]
            exact ⟨rfl, rfl⟩
          | some rb =>
            obtain ⟨tr, htr0, -, -⟩ := rollbackStagesRun_spec pm ctx rb.stages
            have htr : executeRollback pm ctx rb = some tr := htr0
            simp only [runStages, hes, hauto, hrbo, htr, Option.some.injEq,
              Prod.mk.injEq] at h
            obtain ⟨h1, -, -⟩ := h
            subst h1
            rw [finalizeResult_fst_completed, finalizeResult_fst_failed,
              finalizeResult_fst_stages]
            exact ⟨rfl, rfl⟩

/-- C10: rollback execution never modifies the ExecutionResult — the
(result, error) part of `ExecutePlan`'s outcome is identical to that
of the same plan with its rollback section deleted, and the final
CompletedJobs/FailedJobs counts are computed purely from the recorded
forward stage results (`executeRollback` accumulates into a local
StageResult that is never appended to `ExecutionResult.Stages`). -/
theorem ExecutePlan_frame (pm : Manager) (plan : Plan) (options : ExecuteOptions)
    (execId : String) :
    (ExecutePlan pm plan options execId).map (fun t => (t.1, t.2.1))
      = (ExecutePlan pm { plan with rollback := none } options execId).map
          (fun t => (t.1, t.2.1)) ∧
    ∀ res err trace, ExecutePlan pm plan options execId = some (res, err, trace) →
      res.completedJobs = succCount res.stages ∧ res.failedJobs = failCount res.stages := by
  constructor
  · exact runStages_result_ignores_rollback pm (planCtx plan execId) options plan
      { plan with rollback := none } plan.stages
      { id := execId, success := false, totalStages := plan.stages.length,
        totalJobs := countTotalJobs plan, completedJobs := 0, failedJobs := 0,
        stages := [] }
  · intro res err trace hrun
    have h := runStages_counts pm (planCtx plan execId) plan options plan.stages
      { id := execId, success := false, totalStages := plan.stages.length,
        totalJobs := countTotalJobs plan, completedJobs := 0, failedJobs := 0,
        stages := [] } res err trace hrun
    simpa using h

/-- The run result of the AutoRollback scenario plan. -/
def resRBW : ExecutionResult :=
  { id := "exec-1", success := false, totalStages := 3, totalJobs := 3,
    completedJobs := 1, failedJobs := 1,
    stages := [{ name := "s1", success := true,
                 jobs := [{ name := "s1-job", type := "ok", success := true,
                            message := "done", data := [] }] },
               { name := "s2", success := false,
                 jobs := [{ name := "s2-job", type := "bad", success := false,
                            message := "boom", data := [] }] }] }

/-- The rollback trace of the AutoRollback scenario plan. -/
def traceRBW : List (StageResult × Except String Unit) :=
  [({ name := "r1", success := false,
      jobs := [{ name := "r1-job", type := "bad", success := false, message := "boom",
                 data := [] }] }, Except.error "job r1-job failed: boom"),
   ({ name := "r2", success := false,
      jobs := [{ name := "r2-job", type := "ok", success := true, message := "done",
                 data := [] }] }, Except.ok ())]

/-- C10 witness: on the rollback scenario (a failing forward stage,
one failing and one succeeding rollback stage) the run's counts come
from the two recorded forward stages alone — 1 completed, 1 failed —
even though the rollback stages also produced one success and one
failure each. -/
theorem ExecutePlan_frame_witness :
    ExecutePlan testManager rollbackPlanW
        { autoRollback := true, skipApproval := false, dryRun := false } "exec-1"
      = some (resRBW, Except.error "Stage s2 failed: job s2-job failed: boom", traceRBW) ∧
    resRBW.completedJobs = succCount resRBW.stages ∧
    resRBW.failedJobs = failCount resRBW.stages := by
  have h := (ExecutePlan_frame testManager rollbackPlanW
    { autoRollback := true, skipApproval := false, dryRun := false } "exec-1").2
    resRBW (Except.error "Stage s2 failed: job s2-job failed: boom") traceRBW rfl
  exact ⟨rfl, h.1, h.2⟩

end GrpCli
